import Mathlib

/-!
Verification development for the jalapeno-poppers-bot repository.

Strings are modelled as lists of characters.  The text-normalisation
pipeline, the phrase matcher, the menu-matching engine with its daily cache
(dining_checker.py) and the notification dispatcher (run_notifications.py)
are embedded as executable Lean functions; network fetches, HTML parsing and
e-mail transport are parameters at the collaborator boundary, exactly the
boundary the code's own structure draws (requests.get, BeautifulSoup,
smtplib).
-/

namespace Dining

/-- Strings of the Python source, modelled as lists of characters. -/
abbrev Str := List Char

/-- The character class of the regex [a-z0-9] in _normalize_text. -/
def isAlnumChar (c : Char) : Bool :=
  decide (97 ≤ c.toNat ∧ c.toNat ≤ 122) || decide (48 ≤ c.toNat ∧ c.toNat ≤ 57)

/-- ASCII whitespace, as recognised by Python's str.split() and str.strip()
(space, tab, newline, carriage return, vertical tab, form feed). -/
def isSpaceChar (c : Char) : Bool :=
  decide (c.toNat = 32 ∨ c.toNat = 9 ∨ c.toNat = 10 ∨ c.toNat = 13 ∨
    c.toNat = 11 ∨ c.toNat = 12)

/-- Decomposition table for common Latin accented letters: the ASCII base
letter that survives unicodedata.normalize("NFKD", c) followed by
.encode("ascii", "ignore").  Other non-ASCII characters decompose to no
ASCII character at all and are dropped. -/
def latinFold (c : Char) : List Char :=
  if c ∈ ['à', 'á', 'â', 'ã', 'ä', 'å'] then ['a']
  else if c ∈ ['À', 'Á', 'Â', 'Ã', 'Ä', 'Å'] then ['A']
  else if c ∈ ['è', 'é', 'ê', 'ë'] then ['e']
  else if c ∈ ['È', 'É', 'Ê', 'Ë'] then ['E']
  else if c ∈ ['ì', 'í', 'î', 'ï'] then ['i']
  else if c ∈ ['Ì', 'Í', 'Î', 'Ï'] then ['I']
  else if c ∈ ['ò', 'ó', 'ô', 'õ', 'ö'] then ['o']
  else if c ∈ ['Ò', 'Ó', 'Ô', 'Õ', 'Ö'] then ['O']
  else if c ∈ ['ù', 'ú', 'û', 'ü'] then ['u']
  else if c ∈ ['Ù', 'Ú', 'Û', 'Ü'] then ['U']
  else if c ∈ ['ñ'] then ['n']
  else if c ∈ ['Ñ'] then ['N']
  else if c ∈ ['ç'] then ['c']
  else if c ∈ ['Ç'] then ['C']
  else if c ∈ ['ý', 'ÿ'] then ['y']
  else if c ∈ ['Ý'] then ['Y']
  else []

/-- Model of unicodedata.normalize("NFKD", text).encode("ascii","ignore"):
ASCII characters are untouched, accented Latin letters lose their accent,
every other character is dropped. -/
def asciiFold (c : Char) : List Char :=
  if c.toNat < 128 then [c] else latinFold c

/-- Model of re.sub(r"[^a-z0-9]+", " ", text): every maximal run of
characters outside [a-z0-9] is replaced by a single space. -/
def subNonAlnum : List Char → List Char
  | [] => []
  | [c] => if isAlnumChar c then [c] else [(' ' : Char)]
  | c :: d :: rest =>
    if isAlnumChar c then c :: subNonAlnum (d :: rest)
    else if isAlnumChar d then (' ' : Char) :: subNonAlnum (d :: rest)
    else subNonAlnum (d :: rest)

/-- Model of Python's str.split() with no argument: split on runs of
whitespace, dropping empty pieces. -/
def pySplit : List Char → List Str
  | [] => []
  | c :: rest =>
    if isSpaceChar c then pySplit rest
    else
      match rest with
      | [] => [[c]]
      | d :: _ =>
        if isSpaceChar d then [c] :: pySplit rest
        else
          match pySplit rest with
          | [] => [[c]]
          | t :: ts => (c :: t) :: ts

/-- The maximal runs of [a-z0-9] characters of a string, in order.  This is
a specification-level normal form: the tokenizer is proved to compute it. -/
def alnumRuns : List Char → List Str
  | [] => []
  | c :: rest =>
    if isAlnumChar c then
      match rest with
      | [] => [[c]]
      | d :: _ =>
        if isAlnumChar d then
          match alnumRuns rest with
          | [] => [[c]]
          | t :: ts => (c :: t) :: ts
        else [c] :: alnumRuns rest
    else alnumRuns rest

/-- Model of " ".join(tokens). -/
def joinSpaces : List Str → Str
  | [] => []
  | t :: ts =>
    match ts with
    | [] => t
    | _ :: _ => t ++ (' ' : Char) :: joinSpaces ts

/-- dining_checker._normalize_text: strip accents, lowercase, collapse every
run of non-alphanumeric characters to a single space, then rejoin the
whitespace-split pieces with single spaces. -/
def _normalize_text (s : Str) : Str :=
  joinSpaces (pySplit (subNonAlnum ((s.flatMap asciiFold).map Char.toLower)))

/-- dining_checker._tokenize: normalized text split into tokens; the empty
normalized text yields no tokens. -/
def _tokenize (s : Str) : List Str :=
  let t := _normalize_text s
  if t.isEmpty then [] else pySplit t

/-- dining_checker._contains_sequence: does the phrase occur as a contiguous
slice of the token list?  tokens[i : i + len(p)] is (tokens.drop i).take
p.length. -/
def _contains_sequence {α : Type} [DecidableEq α] (tokens phrase_tokens : List α) : Bool :=
  if phrase_tokens.isEmpty then false
  else if tokens.length < phrase_tokens.length then false
  else
    (List.range (tokens.length - phrase_tokens.length + 1)).any
      (fun i => decide ((tokens.drop i).take phrase_tokens.length = phrase_tokens))

/-- Model of Python's str.strip() with no argument: drop leading and
trailing whitespace. -/
def pyStrip (s : Str) : Str :=
  (((s.dropWhile isSpaceChar).reverse.dropWhile isSpaceChar)).reverse

/-! ### Basic character-class lemmas -/

theorem isAlnum_not_space (c : Char) (h : isAlnumChar c = true) : isSpaceChar c = false := by
  simp only [isAlnumChar, Bool.or_eq_true, decide_eq_true_eq] at h
  simp only [isSpaceChar, decide_eq_false_iff_not]
  omega

theorem isAlnum_ascii (c : Char) (h : isAlnumChar c = true) : c.toNat < 128 := by
  simp only [isAlnumChar, Bool.or_eq_true, decide_eq_true_eq] at h
  omega

theorem space_ascii : (' ' : Char).toNat = 32 := by decide

theorem toLower_eq_self_of_alnum (c : Char) (h : isAlnumChar c = true) :
    Char.toLower c = c := by
  simp only [isAlnumChar, Bool.or_eq_true, decide_eq_true_eq] at h
  unfold Char.toLower
  rw [if_neg]
  omega

theorem toLower_space : Char.toLower ' ' = ' ' := by decide

theorem asciiFold_eq_self (c : Char) (h : c.toNat < 128) : asciiFold c = [c] := by
  simp [asciiFold, h]

theorem length_dropWhile_le' (p : Char → Bool) (l : List Char) :
    (l.dropWhile p).length ≤ l.length := by
  induction l with
  | nil => simp
  | cons c t ih =>
    rw [List.dropWhile_cons]
    split
    · exact Nat.le_succ_of_le ih
    · exact le_rfl

/-! ### Equation lemmas for subNonAlnum, pySplit, alnumRuns -/

theorem subNonAlnum_cons_alnum (c : Char) (r : List Char) (h : isAlnumChar c = true) :
    subNonAlnum (c :: r) = c :: subNonAlnum r := by
  cases r with
  | nil => simp [subNonAlnum, h]
  | cons d t => simp [subNonAlnum, h]

theorem subNonAlnum_cons_sep (r : List Char) :
    ∀ c : Char, isAlnumChar c = false →
      subNonAlnum (c :: r) =
        (' ' : Char) :: subNonAlnum (r.dropWhile (fun x => !isAlnumChar x)) := by
  induction r with
  | nil => intro c h; simp [subNonAlnum, h]
  | cons d t ih =>
    intro c h
    by_cases hd : isAlnumChar d = true
    · simp [subNonAlnum, h, hd, List.dropWhile_cons]
    · have hd' : isAlnumChar d = false := by simpa using hd
      have step : subNonAlnum (c :: d :: t) = subNonAlnum (d :: t) := by
        simp [subNonAlnum, h, hd']
      rw [step, ih d hd']
      simp [List.dropWhile_cons, hd']

theorem pySplit_cons_space (c : Char) (r : List Char) (h : isSpaceChar c = true) :
    pySplit (c :: r) = pySplit r := by
  cases r <;> simp [pySplit, h]

theorem pySplit_singleton (c : Char) (h : isSpaceChar c = false) :
    pySplit [c] = [[c]] := by
  simp [pySplit, h]

theorem pySplit_cons_cons_space (c d : Char) (r : List Char)
    (hc : isSpaceChar c = false) (hd : isSpaceChar d = true) :
    pySplit (c :: d :: r) = [c] :: pySplit (d :: r) := by
  simp [pySplit, hc, hd]

theorem pySplit_cons_cons_nonspace (c d : Char) (r : List Char)
    (hc : isSpaceChar c = false) (hd : isSpaceChar d = false) :
    pySplit (c :: d :: r) =
      (match pySplit (d :: r) with
       | [] => [[c]]
       | t :: ts => (c :: t) :: ts) := by
  simp [pySplit, hc, hd]

theorem alnumRuns_cons_sep (c : Char) (r : List Char) (h : isAlnumChar c = false) :
    alnumRuns (c :: r) = alnumRuns r := by
  cases r <;> simp [alnumRuns, h]

theorem alnumRuns_singleton (c : Char) (h : isAlnumChar c = true) :
    alnumRuns [c] = [[c]] := by
  simp [alnumRuns, h]

theorem alnumRuns_cons_cons_sep (c d : Char) (r : List Char)
    (hc : isAlnumChar c = true) (hd : isAlnumChar d = false) :
    alnumRuns (c :: d :: r) = [c] :: alnumRuns (d :: r) := by
  simp [alnumRuns, hc, hd]

theorem alnumRuns_cons_cons_alnum (c d : Char) (r : List Char)
    (hc : isAlnumChar c = true) (hd : isAlnumChar d = true) :
    alnumRuns (c :: d :: r) =
      (match alnumRuns (d :: r) with
       | [] => [[c]]
       | t :: ts => (c :: t) :: ts) := by
  simp [alnumRuns, hc, hd]

theorem alnumRuns_dropWhile (r : List Char) :
    alnumRuns (r.dropWhile (fun x => !isAlnumChar x)) = alnumRuns r := by
  induction r with
  | nil => rfl
  | cons d t ih =>
    by_cases hd : isAlnumChar d = true
    · simp [List.dropWhile_cons, hd]
    · have hd' : isAlnumChar d = false := by simpa using hd
      rw [List.dropWhile_cons, if_pos (by simp [hd']), ih, alnumRuns_cons_sep d t hd']

/-- The tokenizer's split-of-collapsed-separators computation is exactly the
maximal alphanumeric runs of the input. -/
theorem pySplit_subNonAlnum (x : List Char) : pySplit (subNonAlnum x) = alnumRuns x := by
  have main : ∀ n, ∀ x : List Char, x.length ≤ n → pySplit (subNonAlnum x) = alnumRuns x := by
    intro n
    induction n with
    | zero =>
      intro x hx
      have hx0 : x = [] := List.length_eq_zero.mp (Nat.le_zero.mp hx)
      subst hx0; rfl
    | succ n ih =>
      intro x hx
      match x with
      | [] => rfl
      | c :: r =>
        by_cases hc : isAlnumChar c = true
        · have hcs : isSpaceChar c = false := isAlnum_not_space c hc
          rw [subNonAlnum_cons_alnum c r hc]
          match r with
          | [] =>
            show pySplit [c] = alnumRuns [c]
            rw [pySplit_singleton c hcs, alnumRuns_singleton c hc]
          | d :: r' =>
            by_cases hd : isAlnumChar d = true
            · have hds : isSpaceChar d = false := isAlnum_not_space d hd
              rw [subNonAlnum_cons_alnum d r' hd,
                pySplit_cons_cons_nonspace c d (subNonAlnum r') hcs hds,
                ← subNonAlnum_cons_alnum d r' hd,
                ih (d :: r') (by simp at hx ⊢; omega),
                alnumRuns_cons_cons_alnum c d r' hc hd]
            · have hd' : isAlnumChar d = false := by simpa using hd
              rw [subNonAlnum_cons_sep r' d hd',
                pySplit_cons_cons_space c ' ' _ hcs (by decide),
                pySplit_cons_space ' ' _ (by decide),
                ih (r'.dropWhile (fun x => !isAlnumChar x))
                  (by have := length_dropWhile_le' (fun x => !isAlnumChar x) r'
                      simp at hx ⊢; omega),
                alnumRuns_dropWhile r',
                alnumRuns_cons_cons_sep c d r' hc hd',
                alnumRuns_cons_sep d r' hd']
        · have hc' : isAlnumChar c = false := by simpa using hc
          rw [subNonAlnum_cons_sep r c hc',
            pySplit_cons_space ' ' _ (by decide),
            ih (r.dropWhile (fun x => !isAlnumChar x))
              (by have := length_dropWhile_le' (fun x => !isAlnumChar x) r
                  simp at hx ⊢; omega),
            alnumRuns_dropWhile r,
            alnumRuns_cons_sep c r hc']
  exact main x.length x le_rfl

/-! ### Tokens of alnumRuns are non-empty alphanumeric words -/

theorem alnumRuns_tokens (x : List Char) :
    ∀ t ∈ alnumRuns x, t ≠ [] ∧ ∀ c ∈ t, isAlnumChar c = true := by
  induction x with
  | nil => intro t ht; simp [alnumRuns] at ht
  | cons c r ih =>
    intro t ht
    by_cases hc : isAlnumChar c = true
    · match r with
      | [] =>
        rw [alnumRuns_singleton c hc] at ht
        simp at ht
        subst ht
        exact ⟨by simp, by intro e he; simp at he; subst he; exact hc⟩
      | d :: r' =>
        by_cases hd : isAlnumChar d = true
        · rw [alnumRuns_cons_cons_alnum c d r' hc hd] at ht
          match hruns : alnumRuns (d :: r') with
          | [] =>
            rw [hruns] at ht; simp at ht; subst ht
            exact ⟨by simp, by intro e he; simp at he; subst he; exact hc⟩
          | t0 :: ts =>
            rw [hruns] at ht
            simp only [List.mem_cons] at ht
            rcases ht with ht | ht
            · subst ht
              have h0 := ih t0 (by rw [hruns]; simp)
              refine ⟨by simp, ?_⟩
              intro e he
              rcases List.mem_cons.mp he with he | he
              · subst he; exact hc
              · exact h0.2 e he
            · exact ih t (by rw [hruns]; simp [ht])
        · have hd' : isAlnumChar d = false := by simpa using hd
          rw [alnumRuns_cons_cons_sep c d r' hc hd'] at ht
          rcases List.mem_cons.mp ht with ht | ht
          · subst ht
            exact ⟨by simp, by intro e he; simp at he; subst he; exact hc⟩
          · exact ih t ht
    · have hc' : isAlnumChar c = false := by simpa using hc
      rw [alnumRuns_cons_sep c r hc'] at ht
      exact ih t ht

/-! ### pySplit and alnumRuns invert joinSpaces on well-formed token lists -/

theorem pySplit_whole (t : List Char) (hne : t ≠ [])
    (hns : ∀ c ∈ t, isSpaceChar c = false) : pySplit t = [t] := by
  induction t with
  | nil => exact absurd rfl hne
  | cons c r ih =>
    have hc : isSpaceChar c = false := hns c (by simp)
    match r with
    | [] => exact pySplit_singleton c hc
    | d :: r' =>
      have hd : isSpaceChar d = false := hns d (by simp)
      rw [pySplit_cons_cons_nonspace c d r' hc hd,
        ih (by simp) (fun e he => hns e (by simp [he]))]

theorem pySplit_token_prepend (t : List Char) (y : List Char) (hne : t ≠ [])
    (hns : ∀ c ∈ t, isSpaceChar c = false) :
    pySplit (t ++ (' ' : Char) :: y) = t :: pySplit y := by
  induction t with
  | nil => exact absurd rfl hne
  | cons c r ih =>
    have hc : isSpaceChar c = false := hns c (by simp)
    match r with
    | [] =>
      rw [List.cons_append, List.nil_append,
        pySplit_cons_cons_space c ' ' y hc (by decide),
        pySplit_cons_space ' ' y (by decide)]
    | d :: r' =>
      have hd : isSpaceChar d = false := hns d (by simp)
      have ih' := ih (by simp) (fun e he => hns e (by simp [he]))
      rw [List.cons_append] at ih' ⊢
      rw [List.cons_append]
      rw [pySplit_cons_cons_nonspace c d (r' ++ (' ' : Char) :: y) hc hd, ih']

theorem pySplit_joinSpaces (T : List Str)
    (h : ∀ t ∈ T, t ≠ [] ∧ ∀ c ∈ t, isSpaceChar c = false) :
    pySplit (joinSpaces T) = T := by
  induction T with
  | nil => rfl
  | cons t ts ih =>
    match ts with
    | [] =>
      have ht := h t (by simp)
      exact pySplit_whole t ht.1 ht.2
    | u :: ts' =>
      have ht := h t (by simp)
      show pySplit (t ++ (' ' : Char) :: joinSpaces (u :: ts')) = t :: u :: ts'
      rw [pySplit_token_prepend t _ ht.1 ht.2,
        ih (fun s hs => h s (by simp [hs]))]

theorem alnumRuns_whole (t : List Char) (hne : t ≠ [])
    (hal : ∀ c ∈ t, isAlnumChar c = true) : alnumRuns t = [t] := by
  induction t with
  | nil => exact absurd rfl hne
  | cons c r ih =>
    have hc : isAlnumChar c = true := hal c (by simp)
    match r with
    | [] => exact alnumRuns_singleton c hc
    | d :: r' =>
      have hd : isAlnumChar d = true := hal d (by simp)
      rw [alnumRuns_cons_cons_alnum c d r' hc hd,
        ih (by simp) (fun e he => hal e (by simp [he]))]

theorem alnumRuns_token_prepend (t : List Char) (y : List Char) (hne : t ≠ [])
    (hal : ∀ c ∈ t, isAlnumChar c = true) :
    alnumRuns (t ++ (' ' : Char) :: y) = t :: alnumRuns y := by
  induction t with
  | nil => exact absurd rfl hne
  | cons c r ih =>
    have hc : isAlnumChar c = true := hal c (by simp)
    match r with
    | [] =>
      rw [List.cons_append, List.nil_append,
        alnumRuns_cons_cons_sep c ' ' y hc (by decide),
        alnumRuns_cons_sep ' ' y (by decide)]
    | d :: r' =>
      have hd : isAlnumChar d = true := hal d (by simp)
      have ih' := ih (by simp) (fun e he => hal e (by simp [he]))
      rw [List.cons_append] at ih' ⊢
      rw [List.cons_append]
      rw [alnumRuns_cons_cons_alnum c d (r' ++ (' ' : Char) :: y) hc hd, ih']

theorem alnumRuns_joinSpaces (T : List Str)
    (h : ∀ t ∈ T, t ≠ [] ∧ ∀ c ∈ t, isAlnumChar c = true) :
    alnumRuns (joinSpaces T) = T := by
  induction T with
  | nil => rfl
  | cons t ts ih =>
    match ts with
    | [] =>
      have ht := h t (by simp)
      exact alnumRuns_whole t ht.1 ht.2
    | u :: ts' =>
      have ht := h t (by simp)
      show alnumRuns (t ++ (' ' : Char) :: joinSpaces (u :: ts')) = t :: u :: ts'
      rw [alnumRuns_token_prepend t _ ht.1 ht.2,
        ih (fun s hs => h s (by simp [hs]))]

/-- Normal form of the tokenizer: _tokenize computes the maximal
alphanumeric runs of the accent-stripped, lowercased input. -/
theorem tokenize_eq_alnumRuns (s : Str) :
    _tokenize s = alnumRuns ((s.flatMap asciiFold).map Char.toLower) := by
  set w := (s.flatMap asciiFold).map Char.toLower with hw
  have hsplit : pySplit (subNonAlnum w) = alnumRuns w := pySplit_subNonAlnum w
  have htoks := alnumRuns_tokens w
  unfold _tokenize _normalize_text
  rw [← hw, hsplit]
  match hT : alnumRuns w with
  | [] => simp [joinSpaces]
  | t :: ts =>
    have hne : joinSpaces (t :: ts) ≠ [] := by
      have ht := htoks t (by rw [hT]; simp)
      match ts with
      | [] => simpa [joinSpaces] using ht.1
      | u :: ts' =>
        show t ++ (' ' : Char) :: joinSpaces (u :: ts') ≠ []
        simp
    rw [if_neg (by simpa using hne)]
    exact pySplit_joinSpaces (t :: ts)
      (fun s' hs' => by
        have h' := htoks s' (by rw [hT]; exact hs')
        exact ⟨h'.1, fun c hc => isAlnum_not_space c (h'.2 c hc)⟩)

/-- The spec's normalize_as_text: rejoin a token sequence with single
spaces. -/
def normalize_as_text (T : List Str) : Str := joinSpaces T

theorem mem_joinSpaces (T : List Str) (c : Char) (hc : c ∈ joinSpaces T) :
    (∃ t ∈ T, c ∈ t) ∨ c = ' ' := by
  induction T with
  | nil => simp [joinSpaces] at hc
  | cons t ts ih =>
    match ts with
    | [] =>
      left; exact ⟨t, by simp, hc⟩
    | u :: ts' =>
      have hc' : c ∈ t ++ (' ' : Char) :: joinSpaces (u :: ts') := hc
      rcases List.mem_append.mp hc' with h | h
      · left; exact ⟨t, by simp, h⟩
      · rcases List.mem_cons.mp h with h | h
        · right; exact h
        · rcases ih h with ⟨t', ht', hct'⟩ | h
          · left; exact ⟨t', by simp [ht'], hct'⟩
          · right; exact h

theorem flatMap_asciiFold_id (z : List Char) (h : ∀ c ∈ z, c.toNat < 128) :
    z.flatMap asciiFold = z := by
  induction z with
  | nil => rfl
  | cons c r ih =>
    rw [List.flatMap_cons, asciiFold_eq_self c (h c (by simp)),
      ih (fun e he => h e (by simp [he]))]
    rfl

theorem map_toLower_id (z : List Char) (h : ∀ c ∈ z, Char.toLower c = c) :
    z.map Char.toLower = z := by
  induction z with
  | nil => rfl
  | cons c r ih =>
    rw [List.map_cons, h c (by simp), ih (fun e he => h e (by simp [he]))]

/-- C9: tokenizing, rejoining with single spaces, and tokenizing again
yields exactly the token sequence of a single tokenization pass. -/
theorem normalize_idempotent (s : Str) :
    _tokenize (normalize_as_text (_tokenize s)) = _tokenize s := by
  rw [tokenize_eq_alnumRuns s]
  have htoks := alnumRuns_tokens ((s.flatMap asciiFold).map Char.toLower)
  rw [tokenize_eq_alnumRuns (normalize_as_text (alnumRuns ((s.flatMap asciiFold).map Char.toLower)))]
  show alnumRuns (((joinSpaces (alnumRuns ((s.flatMap asciiFold).map Char.toLower))).flatMap
      asciiFold).map Char.toLower) = _
  have hchars : ∀ c ∈ joinSpaces (alnumRuns ((s.flatMap asciiFold).map Char.toLower)),
      isAlnumChar c = true ∨ c = ' ' := by
    intro c hc
    rcases mem_joinSpaces _ c hc with ⟨t, ht, hct⟩ | h
    · left; exact (htoks t ht).2 c hct
    · right; exact h
  rw [flatMap_asciiFold_id _ (by
    intro c hc
    rcases hchars c hc with h | h
    · exact isAlnum_ascii c h
    · subst h; decide)]
  rw [map_toLower_id _ (by
    intro c hc
    rcases hchars c hc with h | h
    · exact toLower_eq_self_of_alnum c h
    · subst h; decide)]
  exact alnumRuns_joinSpaces _ htoks

/-! ### pyStrip lemmas -/

theorem space_not_alnum (c : Char) (h : isSpaceChar c = true) : isAlnumChar c = false := by
  simp only [isSpaceChar, decide_eq_true_eq] at h
  simp only [isAlnumChar, Bool.or_eq_false_iff, decide_eq_false_iff_not]
  omega

theorem space_ascii_lt (c : Char) (h : isSpaceChar c = true) : c.toNat < 128 := by
  simp only [isSpaceChar, decide_eq_true_eq] at h
  omega

theorem space_toLower (c : Char) (h : isSpaceChar c = true) : Char.toLower c = c := by
  simp only [isSpaceChar, decide_eq_true_eq] at h
  unfold Char.toLower
  rw [if_neg]
  omega

theorem spacelist_fold_id (a : List Char) (h : ∀ c ∈ a, isSpaceChar c = true) :
    (a.flatMap asciiFold).map Char.toLower = a := by
  rw [flatMap_asciiFold_id a (fun c hc => space_ascii_lt c (h c hc))]
  exact map_toLower_id a (fun c hc => space_toLower c (h c hc))

theorem alnumRuns_all_sep (b : List Char) (hb : ∀ c ∈ b, isAlnumChar c = false) :
    alnumRuns b = [] := by
  induction b with
  | nil => rfl
  | cons c r ih =>
    rw [alnumRuns_cons_sep c r (hb c (by simp))]
    exact ih (fun e he => hb e (by simp [he]))

theorem alnumRuns_append_sep_left (a y : List Char) (ha : ∀ c ∈ a, isAlnumChar c = false) :
    alnumRuns (a ++ y) = alnumRuns y := by
  induction a with
  | nil => rfl
  | cons c r ih =>
    rw [List.cons_append, alnumRuns_cons_sep c (r ++ y) (ha c (by simp))]
    exact ih (fun e he => ha e (by simp [he]))

theorem alnumRuns_append_sep_right (u : List Char) :
    ∀ b : List Char, (∀ c ∈ b, isAlnumChar c = false) →
      alnumRuns (u ++ b) = alnumRuns u := by
  induction u with
  | nil =>
    intro b hb
    simpa using alnumRuns_all_sep b hb
  | cons c u' ih =>
    intro b hb
    by_cases hc : isAlnumChar c = true
    · match u' with
      | [] =>
        match b with
        | [] => rfl
        | d :: b' =>
          have hd : isAlnumChar d = false := hb d (by simp)
          show alnumRuns (c :: d :: b') = alnumRuns [c]
          rw [alnumRuns_cons_cons_sep c d b' hc hd, alnumRuns_cons_sep d b' hd,
            alnumRuns_all_sep b' (fun e he => hb e (by simp [he])),
            alnumRuns_singleton c hc]
      | d :: u'' =>
        have ih' := ih b hb
        rw [List.cons_append] at ih' ⊢
        by_cases hd : isAlnumChar d = true
        · rw [List.cons_append]
          rw [alnumRuns_cons_cons_alnum c d (u'' ++ b) hc hd, ih',
            alnumRuns_cons_cons_alnum c d u'' hc hd]
        · have hd' : isAlnumChar d = false := by simpa using hd
          rw [List.cons_append]
          rw [alnumRuns_cons_cons_sep c d (u'' ++ b) hc hd', ih',
            alnumRuns_cons_cons_sep c d u'' hc hd']
    · have hc' : isAlnumChar c = false := by simpa using hc
      rw [List.cons_append, alnumRuns_cons_sep c (u' ++ b) hc',
        alnumRuns_cons_sep c u' hc']
      exact ih b hb

/-- Stripping outer whitespace does not change the token sequence. -/
theorem tokenize_pyStrip (s : Str) : _tokenize (pyStrip s) = _tokenize s := by
  rw [tokenize_eq_alnumRuns, tokenize_eq_alnumRuns]
  have h2 := (List.takeWhile_append_dropWhile isSpaceChar (s.dropWhile isSpaceChar).reverse).symm
  have h3 : s.dropWhile isSpaceChar =
      ((s.dropWhile isSpaceChar).reverse.dropWhile isSpaceChar).reverse ++
        ((s.dropWhile isSpaceChar).reverse.takeWhile isSpaceChar).reverse := by
    conv_lhs => rw [← List.reverse_reverse (s.dropWhile isSpaceChar), h2]
    rw [List.reverse_append]
  have hdecomp : s = s.takeWhile isSpaceChar ++
      (((s.dropWhile isSpaceChar).reverse.dropWhile isSpaceChar).reverse ++
        ((s.dropWhile isSpaceChar).reverse.takeWhile isSpaceChar).reverse) := by
    conv_lhs => rw [← List.takeWhile_append_dropWhile isSpaceChar s]
    rw [← h3]
  have hpre : ∀ c ∈ s.takeWhile isSpaceChar, isSpaceChar c = true :=
    fun c hc => List.mem_takeWhile_imp hc
  have hsuf : ∀ c ∈ ((s.dropWhile isSpaceChar).reverse.takeWhile isSpaceChar).reverse,
      isSpaceChar c = true :=
    fun c hc => List.mem_takeWhile_imp (List.mem_reverse.mp hc)
  have hps : pyStrip s = ((s.dropWhile isSpaceChar).reverse.dropWhile isSpaceChar).reverse := rfl
  conv_rhs => rw [hdecomp]
  rw [List.flatMap_append, List.flatMap_append, List.map_append, List.map_append,
    spacelist_fold_id _ hpre, spacelist_fold_id _ hsuf,
    alnumRuns_append_sep_left _ _ (fun c hc => space_not_alnum c (hpre c hc)),
    alnumRuns_append_sep_right _ _ (fun c hc => space_not_alnum c (hsuf c hc)), hps]

/-! ### Keyword cleaning: strip, drop empties, deduplicate keeping first
occurrences (list(dict.fromkeys(...))) -/

def dedupeFirstAux {α : Type} [DecidableEq α] (seen : List α) : List α → List α
  | [] => []
  | k :: rest =>
    if k ∈ seen then dedupeFirstAux seen rest else k :: dedupeFirstAux (k :: seen) rest

/-- Model of list(dict.fromkeys(l)): deduplicate keeping the first
occurrence of each element. -/
def dedupeFirst {α : Type} [DecidableEq α] (l : List α) : List α := dedupeFirstAux [] l

/-- The keyword cleanup that appears inline in the source:
[k.strip() for k in keywords if k and k.strip()] then list(dict.fromkeys(.)). -/
def cleanKw (keywords : List Str) : List Str :=
  dedupeFirst ((keywords.filter (fun k => !k.isEmpty && !(pyStrip k).isEmpty)).map pyStrip)

theorem mem_dedupeFirstAux {α : Type} [DecidableEq α] (l : List α) :
    ∀ (seen : List α) (x : α), x ∈ dedupeFirstAux seen l ↔ x ∈ l ∧ x ∉ seen := by
  induction l with
  | nil => intro seen x; simp [dedupeFirstAux]
  | cons k rest ih =>
    intro seen x
    by_cases hks : k ∈ seen
    · rw [show dedupeFirstAux seen (k :: rest) = dedupeFirstAux seen rest by
        simp [dedupeFirstAux, hks]]
      rw [ih seen x]
      constructor
      · rintro ⟨h1, h2⟩; exact ⟨by simp [h1], h2⟩
      · rintro ⟨h1, h2⟩
        rcases List.mem_cons.mp h1 with h1 | h1
        · subst h1; exact absurd hks h2
        · exact ⟨h1, h2⟩
    · rw [show dedupeFirstAux seen (k :: rest) = k :: dedupeFirstAux (k :: seen) rest by
        simp [dedupeFirstAux, hks]]
      constructor
      · intro h
        rcases List.mem_cons.mp h with h | h
        · subst h; exact ⟨by simp, hks⟩
        · have := (ih (k :: seen) x).mp h
          exact ⟨by simp [this.1], fun hx => this.2 (by simp [hx])⟩
      · rintro ⟨h1, h2⟩
        rcases List.mem_cons.mp h1 with h1 | h1
        · subst h1; simp
        · by_cases hxk : x = k
          · subst hxk; simp
          · exact List.mem_cons_of_mem _ ((ih (k :: seen) x).mpr
              ⟨h1, by simp [hxk, h2]⟩)

theorem mem_dedupeFirst {α : Type} [DecidableEq α] (l : List α) (x : α) :
    x ∈ dedupeFirst l ↔ x ∈ l := by
  rw [dedupeFirst, mem_dedupeFirstAux]
  simp

theorem nodup_dedupeFirstAux {α : Type} [DecidableEq α] (l : List α) :
    ∀ seen : List α, (dedupeFirstAux seen l).Nodup := by
  induction l with
  | nil => intro seen; simp [dedupeFirstAux]
  | cons k rest ih =>
    intro seen
    by_cases hks : k ∈ seen
    · rw [show dedupeFirstAux seen (k :: rest) = dedupeFirstAux seen rest by
        simp [dedupeFirstAux, hks]]
      exact ih seen
    · rw [show dedupeFirstAux seen (k :: rest) = k :: dedupeFirstAux (k :: seen) rest by
        simp [dedupeFirstAux, hks]]
      refine List.nodup_cons.mpr ⟨?_, ih (k :: seen)⟩
      intro hmem
      exact ((mem_dedupeFirstAux rest (k :: seen) k).mp hmem).2 (by simp)

theorem nodup_dedupeFirst {α : Type} [DecidableEq α] (l : List α) :
    (dedupeFirst l).Nodup := nodup_dedupeFirstAux l []

theorem dedupeFirstAux_of_nodup {α : Type} [DecidableEq α] (l : List α) :
    ∀ seen : List α, l.Nodup → (∀ x ∈ l, x ∉ seen) → dedupeFirstAux seen l = l := by
  induction l with
  | nil => intro seen _ _; rfl
  | cons k rest ih =>
    intro seen hnd hdisj
    rw [show dedupeFirstAux seen (k :: rest) = k :: dedupeFirstAux (k :: seen) rest by
      simp [dedupeFirstAux, hdisj k (by simp)]]
    rw [ih (k :: seen) (List.nodup_cons.mp hnd).2]
    intro x hx
    simp only [List.mem_cons]
    push_neg
    exact ⟨fun hxk => (List.nodup_cons.mp hnd).1 (hxk ▸ hx), hdisj x (by simp [hx])⟩

theorem dedupeFirst_of_nodup {α : Type} [DecidableEq α] (l : List α) (h : l.Nodup) :
    dedupeFirst l = l :=
  dedupeFirstAux_of_nodup l [] h (by simp)

theorem map_id_of_mem {α : Type} (f : α → α) (l : List α) (h : ∀ a ∈ l, f a = a) :
    l.map f = l := by
  induction l with
  | nil => rfl
  | cons a t ih => rw [List.map_cons, h a (by simp), ih (fun x hx => h x (by simp [hx]))]

/-! ### pyStrip idempotence -/

theorem dropWhile_head_false {α : Type} (p : α → Bool) (l : List α) :
    ∀ (c : α) (t : List α), l.dropWhile p = c :: t → p c = false := by
  induction l with
  | nil => intro c t h; simp at h
  | cons a l' ih =>
    intro c t h
    rw [List.dropWhile_cons] at h
    split at h
    · exact ih c t h
    · rename_i hpa
      injection h with h1 _
      subst h1
      simpa using hpa

theorem dropWhile_eq_self_of_head {α : Type} (p : α → Bool) (l : List α)
    (h : ∀ (c : α) (t : List α), l = c :: t → p c = false) : l.dropWhile p = l := by
  cases l with
  | nil => rfl
  | cons c t => rw [List.dropWhile_cons, if_neg (by simp [h c t rfl])]

theorem reverse_dropWhile_decomp (p : Char → Bool) (m : List Char) :
    m = (m.reverse.dropWhile p).reverse ++ (m.reverse.takeWhile p).reverse := by
  conv_lhs => rw [← List.reverse_reverse m,
    (List.takeWhile_append_dropWhile p m.reverse).symm]
  rw [List.reverse_append]

theorem pyStrip_idem (s : Str) : pyStrip (pyStrip s) = pyStrip s := by
  have hr_head : ∀ (c : Char) (t : List Char),
      (s.dropWhile isSpaceChar).reverse.dropWhile isSpaceChar = c :: t →
        isSpaceChar c = false :=
    dropWhile_head_false isSpaceChar _
  have hstep1 : ((pyStrip s).dropWhile isSpaceChar) = pyStrip s := by
    apply dropWhile_eq_self_of_head
    intro c t h
    -- pyStrip s is a prefix of s.dropWhile isSpaceChar, whose head is not space
    have hm := reverse_dropWhile_decomp isSpaceChar (s.dropWhile isSpaceChar)
    rw [show ((s.dropWhile isSpaceChar).reverse.dropWhile isSpaceChar).reverse = pyStrip s
        from rfl] at hm
    rw [h] at hm
    exact dropWhile_head_false isSpaceChar s c _ (by rw [hm]; rfl)
  show (((pyStrip s).dropWhile isSpaceChar).reverse.dropWhile isSpaceChar).reverse = pyStrip s
  rw [hstep1]
  show ((((s.dropWhile isSpaceChar).reverse.dropWhile isSpaceChar).reverse).reverse.dropWhile
    isSpaceChar).reverse = _
  rw [List.reverse_reverse]
  rw [dropWhile_eq_self_of_head isSpaceChar _ (fun c t h => hr_head c t h)]
  rfl

theorem mem_cleanKw (ks : List Str) (x : Str) (h : x ∈ cleanKw ks) :
    ∃ k ∈ ks, x = pyStrip k ∧ x ≠ [] := by
  rw [cleanKw, mem_dedupeFirst] at h
  rcases List.mem_map.mp h with ⟨k, hk, hx⟩
  rcases List.mem_filter.mp hk with ⟨hkmem, hkcond⟩
  refine ⟨k, hkmem, hx.symm, ?_⟩
  simp only [Bool.and_eq_true, Bool.not_eq_true'] at hkcond
  rw [← hx]
  simpa [List.isEmpty_iff] using hkcond.2

theorem cleanKw_idem (ks : List Str) : cleanKw (cleanKw ks) = cleanKw ks := by
  have helem : ∀ a ∈ cleanKw ks, pyStrip a = a ∧ a ≠ [] := by
    intro a ha
    rcases mem_cleanKw ks a ha with ⟨k, _, hak, hane⟩
    subst hak
    exact ⟨pyStrip_idem k, hane⟩
  have h1 : (cleanKw ks).filter (fun k => !k.isEmpty && !(pyStrip k).isEmpty) = cleanKw ks := by
    apply List.filter_eq_self.mpr
    intro a ha
    rcases helem a ha with ⟨hstrip, hne⟩
    simp [List.isEmpty_iff, hne, hstrip]
  have h2 : (cleanKw ks).map pyStrip = cleanKw ks :=
    map_id_of_mem pyStrip _ (fun a ha => (helem a ha).1)
  show dedupeFirst (((cleanKw ks).filter _).map pyStrip) = cleanKw ks
  rw [h1, h2]
  exact dedupeFirst_of_nodup _ (nodup_dedupeFirst _)

/-! ### Matching against extracted items: _find_keyword_details_from_items -/

/-- Model of Python's set.add on a set represented as an insertion-ordered
duplicate-free list. -/
def setAdd (s : List Str) (x : Str) : List Str := if x ∈ s then s else s ++ [x]

/-- Model of matches.setdefault(kw, set()).add(meal_label) on a dict
represented as an insertion-ordered association list. -/
def setdefaultAdd : List (Str × List Str) → Str → Str → List (Str × List Str)
  | [], kw, ml => [(kw, [ml])]
  | (k, s) :: rest, kw, ml =>
    if k = kw then (k, setAdd s ml) :: rest else (k, s) :: setdefaultAdd rest kw ml

/-- dining_checker._find_keyword_details_from_items: for every meal section
and item, record the meal label under each keyword whose token sequence
occurs in the item. -/
def _find_keyword_details_from_items (items_by_meal : List (Str × List Str))
    (keywords : List Str) : List (Str × List Str) :=
  let kw_list := cleanKw keywords
  if kw_list.isEmpty then []
  else
    items_by_meal.foldl
      (fun ms p =>
        p.2.foldl
          (fun ms item =>
            kw_list.foldl
              (fun ms kw =>
                if _contains_sequence (_tokenize item) (_tokenize kw) then
                  setdefaultAdd ms kw p.1
                else ms)
              ms)
          ms)
      []

theorem foldl_preserve {α β : Type} (P : β → Prop) (f : β → α → β) (l : List α) :
    ∀ init : β, P init → (∀ b a, a ∈ l → P b → P (f b a)) → P (l.foldl f init) := by
  induction l with
  | nil => intro init h0 _; exact h0
  | cons a t ih =>
    intro init h0 hstep
    exact ih (f init a) (hstep init a (by simp) h0)
      (fun b x hx hb => hstep b x (by simp [hx]) hb)

theorem mem_setdefaultAdd (k ml kw : Str) (s : List Str) :
    ∀ m : List (Str × List Str),
      (kw, s) ∈ setdefaultAdd m k ml → kw = k ∨ ∃ s₀, (kw, s₀) ∈ m := by
  intro m
  induction m with
  | nil =>
    intro h
    simp only [setdefaultAdd, List.mem_singleton, Prod.mk.injEq] at h
    left; exact h.1
  | cons e rest ih =>
    obtain ⟨k', s'⟩ := e
    intro h
    by_cases hk : k' = kw ∧ k' = k
    · left; rw [← hk.1, hk.2]
    · by_cases hk2 : k' = k
      · rw [show setdefaultAdd ((k', s') :: rest) k ml = (k', setAdd s' ml) :: rest by
          simp [setdefaultAdd, hk2]] at h
        rcases List.mem_cons.mp h with h | h
        · rw [Prod.ext_iff] at h
          left; exact h.1.trans hk2
        · right; exact ⟨s, List.mem_cons_of_mem _ h⟩
      · rw [show setdefaultAdd ((k', s') :: rest) k ml = (k', s') :: setdefaultAdd rest k ml by
          simp [setdefaultAdd, hk2]] at h
        rcases List.mem_cons.mp h with h | h
        · right; exact ⟨s, by rw [h]; exact List.mem_cons_self _ _⟩
        · rcases ih h with h | ⟨s₀, h⟩
          · left; exact h
          · right; exact ⟨s₀, List.mem_cons_of_mem _ h⟩

theorem contains_phrase_ne_nil {α : Type} [DecidableEq α] (tokens p : List α)
    (h : _contains_sequence tokens p = true) : p ≠ [] := by
  intro hp
  subst hp
  simp [_contains_sequence] at h

/-- Every keyword key recorded by _find_keyword_details_from_items comes
with a witnessing meal section and item that contains its token phrase. -/
theorem fromItems_key_origin (items_by_meal : List (Str × List Str)) (keywords : List Str) :
    ∀ kw s, (kw, s) ∈ _find_keyword_details_from_items items_by_meal keywords →
      kw ∈ cleanKw keywords ∧
      ∃ ml itemsl item, (ml, itemsl) ∈ items_by_meal ∧ item ∈ itemsl ∧
        _contains_sequence (_tokenize item) (_tokenize kw) = true := by
  intro kw s h
  simp only [_find_keyword_details_from_items] at h
  by_cases hkl : (cleanKw keywords).isEmpty = true
  · rw [if_pos hkl] at h
    simp at h
  · rw [if_neg hkl] at h
    refine foldl_preserve
      (fun m => ∀ kw' s', (kw', s') ∈ m →
        kw' ∈ cleanKw keywords ∧
        ∃ ml itemsl item, (ml, itemsl) ∈ items_by_meal ∧ item ∈ itemsl ∧
          _contains_sequence (_tokenize item) (_tokenize kw') = true)
      _ items_by_meal [] (by simp) ?_ kw s h
    intro m p hp hm
    refine foldl_preserve
      (fun m => ∀ kw' s', (kw', s') ∈ m →
        kw' ∈ cleanKw keywords ∧
        ∃ ml itemsl item, (ml, itemsl) ∈ items_by_meal ∧ item ∈ itemsl ∧
          _contains_sequence (_tokenize item) (_tokenize kw') = true)
      _ p.2 m hm ?_
    intro m' item hitem hm'
    refine foldl_preserve
      (fun m => ∀ kw' s', (kw', s') ∈ m →
        kw' ∈ cleanKw keywords ∧
        ∃ ml itemsl item, (ml, itemsl) ∈ items_by_meal ∧ item ∈ itemsl ∧
          _contains_sequence (_tokenize item) (_tokenize kw') = true)
      _ (cleanKw keywords) m' hm' ?_
    intro m'' kw0 hkw0 hm''
    by_cases hcond : _contains_sequence (_tokenize item) (_tokenize kw0) = true
    · rw [if_pos hcond]
      intro kw' s' hmem
      rcases mem_setdefaultAdd kw0 p.1 kw' s' m'' hmem with heq | ⟨s₀, hmem'⟩
      · subst heq
        exact ⟨hkw0, p.1, p.2, item, hp, hitem, hcond⟩
      · exact hm'' kw' s₀ hmem'
    · rw [if_neg hcond]
      exact hm''

/-! ### Dining hall configuration and the daily menu cache -/

/-- The static hall → URL table of dining_checker.py. -/
def DINING_URLS : List (Str × Str) :=
  [("Simmons Hall".toList, "http://mit.cafebonappetit.com/cafe/simmons/".toList),
   ("Maseeh Hall".toList, "http://mit.cafebonappetit.com/cafe/the-howard-dining-hall-at-maseeh/".toList),
   ("New Vassar".toList, "http://mit.cafebonappetit.com/cafe/new-vassar/".toList),
   ("Baker House".toList, "http://mit.cafebonappetit.com/cafe/baker/".toList),
   ("McCormick".toList, "http://mit.cafebonappetit.com/cafe/mccormick/".toList),
   ("Next House".toList, "http://mit.cafebonappetit.com/cafe/next/".toList)]

/-- The menu_cache table plus a counter of network fetch attempts
(instrumentation for the cache-transparency property).  Calendar dates are
natural numbers. -/
structure CacheState where
  cache : List ((Str × Nat) × Str)
  fetchCalls : Nat
deriving DecidableEq

def emptyCache : CacheState := ⟨[], 0⟩

/-- SELECT html FROM menu_cache WHERE hall = ... AND menu_date = ... -/
def cacheLookup : List ((Str × Nat) × Str) → (Str × Nat) → Option Str
  | [], _ => none
  | e :: rest, key => if e.1 = key then some e.2 else cacheLookup rest key

def _get_cached_menu (st : CacheState) (hall : Str) (d : Nat) : Option Str :=
  cacheLookup st.cache (hall, d)

/-- INSERT ... ON CONFLICT (hall, menu_date) DO UPDATE SET html = ... -/
def cacheUpsert : List ((Str × Nat) × Str) → (Str × Nat) → Str → List ((Str × Nat) × Str)
  | [], key, v => [(key, v)]
  | e :: rest, key, v => if e.1 = key then (key, v) :: rest else e :: cacheUpsert rest key v

def _set_cached_menu (st : CacheState) (hall : Str) (d : Nat) (payload : Str) : CacheState :=
  { st with cache := cacheUpsert st.cache (hall, d) payload }

/-- dining_checker.fetch_menu.  The network is a parameter: net hall is
either the fetched page text or a raised requests exception.  A cached
empty string is falsy in Python, so it does not count as a hit.  A fresh
fetch is cached (even an empty page) when caching is enabled. -/
def fetch_menu (enabled : Bool) (tdy : Nat) (net : Str → Except Unit Str) (hall : Str)
    (st : CacheState) : Except Unit Str × CacheState :=
  let hit : Option Str :=
    if enabled then
      match _get_cached_menu st hall tdy with
      | some c => if c.isEmpty then none else some c
      | none => none
    else none
  match hit with
  | some c => (Except.ok c, st)
  | none =>
    match net hall with
    | Except.error e => (Except.error e, { st with fetchCalls := st.fetchCalls + 1 })
    | Except.ok html =>
      let st' : CacheState := { st with fetchCalls := st.fetchCalls + 1 }
      (Except.ok html, if enabled then _set_cached_menu st' hall tdy html else st')

/-- kw → set of meal labels, as insertion-ordered association lists. -/
abbrev Matches := List (Str × List Str)

/-- hall → Matches, in hall-iteration order. -/
abbrev HallResults := List (Str × Matches)

/-- meal label → list of item names, the extractor's output shape. -/
abbrev ItemsByMeal := List (Str × List Str)

/-- Python: set(halls_filter) if halls_filter else set(DINING_URLS):
None and the empty list both mean all configured halls. -/
def hallsAllowed (halls_filter : Option (List Str)) : List Str :=
  match halls_filter with
  | some hs => if hs.isEmpty then DINING_URLS.map Prod.fst else hs
  | none => DINING_URLS.map Prod.fst

/-- The per-hall loop of dining_checker.find_keyword_details.  Only the
fetch is inside the try/except; the extractor runs outside it, so an
extraction exception propagates out of the whole loop. -/
def detailsFold (enabled : Bool) (tdy : Nat) (net : Str → Except Unit Str)
    (extract : Str → Except Unit ItemsByMeal) (kw_list : List Str) (allowed : List Str) :
    List (Str × Str) → HallResults × CacheState → Except Unit (HallResults × CacheState)
  | [], acc => Except.ok acc
  | hu :: rest, acc =>
    if hu.1 ∈ allowed then
      match fetch_menu enabled tdy net hu.1 acc.2 with
      | (Except.error _, st') =>
        detailsFold enabled tdy net extract kw_list allowed rest (acc.1, st')
      | (Except.ok html, st') =>
        if html.isEmpty then
          detailsFold enabled tdy net extract kw_list allowed rest (acc.1, st')
        else
          match extract html with
          | Except.error e => Except.error e
          | Except.ok items =>
            if (_find_keyword_details_from_items items kw_list).isEmpty then
              detailsFold enabled tdy net extract kw_list allowed rest (acc.1, st')
            else
              detailsFold enabled tdy net extract kw_list allowed rest
                (acc.1 ++ [(hu.1, _find_keyword_details_from_items items kw_list)], st')
    else detailsFold enabled tdy net extract kw_list allowed rest acc

/-- dining_checker.find_keyword_details, with the network fetch and the
HTML extractor as collaborator parameters and the cache state threaded
explicitly. -/
def find_keyword_details (enabled : Bool) (tdy : Nat) (net : Str → Except Unit Str)
    (extract : Str → Except Unit ItemsByMeal) (keywords : List Str)
    (halls_filter : Option (List Str)) (st : CacheState) :
    Except Unit (HallResults × CacheState) :=
  let kw_list := cleanKw keywords
  if kw_list.isEmpty then Except.ok ([], st)
  else detailsFold enabled tdy net extract kw_list (hallsAllowed halls_filter) DINING_URLS ([], st)

/-- An extractor that never raises (the observed behavior of
_extract_items_by_meal, which catches its own JSON errors). -/
def okExtract (ex : Str → ItemsByMeal) : Str → Except Unit ItemsByMeal :=
  fun d => Except.ok (ex d)

/-! ### Characterising engine runs -/

/-- The per-hall outcome of a run whose fetches all go to the network. -/
def freshHall (net : Str → Except Unit Str) (ex : Str → ItemsByMeal)
    (kw_list allowed : List Str) (p : Str × Str) : Option (Str × Matches) :=
  if p.1 ∈ allowed then
    match net p.1 with
    | Except.error _ => none
    | Except.ok html =>
      if html.isEmpty then none
      else
        if (_find_keyword_details_from_items (ex html) kw_list).isEmpty then none
        else some (p.1, _find_keyword_details_from_items (ex html) kw_list)
  else none

/-- The cache entry such a run writes for one hall. -/
def freshInsert (enabled : Bool) (tdy : Nat) (net : Str → Except Unit Str)
    (allowed : List Str) (p : Str × Str) : Option ((Str × Nat) × Str) :=
  if enabled = true ∧ p.1 ∈ allowed then
    match net p.1 with
    | Except.ok html => some ((p.1, tdy), html)
    | Except.error _ => none
  else none

theorem cacheLookup_append (a b : List ((Str × Nat) × Str)) (key : Str × Nat) :
    cacheLookup (a ++ b) key =
      (match cacheLookup a key with
       | some v => some v
       | none => cacheLookup b key) := by
  induction a with
  | nil => rfl
  | cons e rest ih =>
    by_cases he : e.1 = key
    · simp [cacheLookup, he]
    · simp only [List.cons_append, cacheLookup, if_neg he]
      exact ih

theorem cacheUpsert_append (c : List ((Str × Nat) × Str)) (key : Str × Nat) (v : Str)
    (h : cacheLookup c key = none) : cacheUpsert c key v = c ++ [(key, v)] := by
  induction c with
  | nil => rfl
  | cons e rest ih =>
    by_cases he : e.1 = key
    · rw [cacheLookup, if_pos he] at h
      exact absurd h (by simp)
    · rw [cacheLookup, if_neg he] at h
      rw [show cacheUpsert (e :: rest) key v = e :: cacheUpsert rest key v by
        simp [cacheUpsert, he]]
      rw [ih h, List.cons_append]

theorem fetch_menu_miss (enabled : Bool) (tdy : Nat) (net : Str → Except Unit Str)
    (hall : Str) (st : CacheState)
    (h : enabled = true → cacheLookup st.cache (hall, tdy) = none) :
    fetch_menu enabled tdy net hall st =
      match net hall with
      | Except.error e => (Except.error e, ⟨st.cache, st.fetchCalls + 1⟩)
      | Except.ok html =>
        (Except.ok html,
          ⟨if enabled then cacheUpsert st.cache (hall, tdy) html else st.cache,
           st.fetchCalls + 1⟩) := by
  by_cases he : enabled = true
  · subst he
    unfold fetch_menu _get_cached_menu _set_cached_menu
    rw [h rfl]
    cases hnet : net hall <;> simp [hnet]
  · have he' : enabled = false := by simpa using he
    subst he'
    unfold fetch_menu _get_cached_menu _set_cached_menu
    cases hnet : net hall <;> simp [hnet]

theorem fetch_menu_hit (tdy : Nat) (net : Str → Except Unit Str) (hall : Str)
    (st : CacheState) (v : Str) (hv : cacheLookup st.cache (hall, tdy) = some v)
    (hne : v.isEmpty = false) :
    fetch_menu true tdy net hall st = (Except.ok v, st) := by
  unfold fetch_menu _get_cached_menu
  rw [hv]
  simp [hne]

/-- A run of the per-hall loop in which every allowed hall misses the
cache: the results are the fresh per-hall outcomes, the cache grows by one
entry per allowed fetched hall, and one network call is made per allowed
hall. -/
theorem detailsFold_fresh (enabled : Bool) (tdy : Nat) (net : Str → Except Unit Str)
    (ex : Str → ItemsByMeal) (kw_list allowed : List Str) :
    ∀ (l : List (Str × Str)) (res : HallResults) (st : CacheState),
      (l.map Prod.fst).Nodup →
      (enabled = true → ∀ p ∈ l, p.1 ∈ allowed → cacheLookup st.cache (p.1, tdy) = none) →
      detailsFold enabled tdy net (okExtract ex) kw_list allowed l (res, st)
        = Except.ok (res ++ l.filterMap (freshHall net ex kw_list allowed),
            ⟨st.cache ++ l.filterMap (freshInsert enabled tdy net allowed),
             st.fetchCalls + (l.filter (fun p => decide (p.1 ∈ allowed))).length⟩) := by
  intro l
  induction l with
  | nil =>
    intro res st _ _
    simp [detailsFold]
  | cons hu rest ih =>
    intro res st hnd hmiss
    have hndr : (rest.map Prod.fst).Nodup := by
      rw [List.map_cons, List.nodup_cons] at hnd
      exact hnd.2
    have hnotin : hu.1 ∉ rest.map Prod.fst := by
      rw [List.map_cons, List.nodup_cons] at hnd
      exact hnd.1
    by_cases hall : hu.1 ∈ allowed
    · have hfetch := fetch_menu_miss enabled tdy net hu.1 st
        (fun he => hmiss he hu (by simp) hall)
      cases hnet : net hu.1 with
      | error e =>
        have hstep : detailsFold enabled tdy net (okExtract ex) kw_list allowed
            (hu :: rest) (res, st)
            = detailsFold enabled tdy net (okExtract ex) kw_list allowed rest
                (res, ⟨st.cache, st.fetchCalls + 1⟩) := by
          simp only [detailsFold, if_pos hall, hfetch, hnet]
        rw [hstep, ih res ⟨st.cache, st.fetchCalls + 1⟩ hndr
          (fun he p hp hpall => hmiss he p (by simp [hp]) hpall)]
        have hFH : freshHall net ex kw_list allowed hu = none := by
          simp [freshHall, hall, hnet]
        have hFI : freshInsert enabled tdy net allowed hu = none := by
          unfold freshInsert
          split
          · rw [hnet]
          · rfl
        rw [show (hu :: rest).filterMap (freshHall net ex kw_list allowed)
            = rest.filterMap (freshHall net ex kw_list allowed) by
          rw [List.filterMap_cons, hFH]]
        rw [show (hu :: rest).filterMap (freshInsert enabled tdy net allowed)
            = rest.filterMap (freshInsert enabled tdy net allowed) by
          rw [List.filterMap_cons, hFI]]
        rw [show (hu :: rest).filter (fun p => decide (p.1 ∈ allowed))
            = hu :: rest.filter (fun p => decide (p.1 ∈ allowed)) by
          rw [List.filter_cons, if_pos (by simp [hall])]]
        simp only [List.length_cons, Except.ok.injEq, Prod.mk.injEq, CacheState.mk.injEq]
        exact ⟨trivial, trivial, by omega⟩
      | ok html =>
        have hcache : (if enabled then cacheUpsert st.cache (hu.1, tdy) html else st.cache)
            = st.cache ++ (if enabled = true then [((hu.1, tdy), html)] else []) := by
          by_cases hen : enabled = true
          · rw [if_pos hen, if_pos hen, cacheUpsert_append st.cache (hu.1, tdy) html
              (hmiss hen hu (by simp) hall)]
          · have hen' : enabled = false := by simpa using hen
            rw [hen']
            simp
        have hmiss' : enabled = true → ∀ p ∈ rest, p.1 ∈ allowed →
            cacheLookup (st.cache ++ (if enabled = true then [((hu.1, tdy), html)] else []))
              (p.1, tdy) = none := by
          intro he p hp hpall
          rw [cacheLookup_append, hmiss he p (by simp [hp]) hpall, if_pos he]
          have hne : hu.1 ≠ p.1 :=
            fun hcontr => hnotin (hcontr ▸ List.mem_map_of_mem Prod.fst hp)
          simp [cacheLookup, Prod.mk.injEq, hne]
        have hFI : freshInsert enabled tdy net allowed hu
            = (if enabled = true then some ((hu.1, tdy), html) else none) := by
          unfold freshInsert
          by_cases hen : enabled = true
          · rw [if_pos ⟨hen, hall⟩, hnet, if_pos hen]
          · rw [if_neg (by simp [hen]), if_neg hen]
        have hconsFI : (hu :: rest).filterMap (freshInsert enabled tdy net allowed)
            = (if enabled = true then [((hu.1, tdy), html)] else [])
              ++ rest.filterMap (freshInsert enabled tdy net allowed) := by
          rw [List.filterMap_cons, hFI]
          by_cases hen : enabled = true <;> simp [hen]
        have hconsFilter : (hu :: rest).filter (fun p => decide (p.1 ∈ allowed))
            = hu :: rest.filter (fun p => decide (p.1 ∈ allowed)) := by
          rw [List.filter_cons, if_pos (by simp [hall])]
        by_cases hhtml : html.isEmpty = true
        · have hstep : detailsFold enabled tdy net (okExtract ex) kw_list allowed
              (hu :: rest) (res, st)
              = detailsFold enabled tdy net (okExtract ex) kw_list allowed rest
                  (res, ⟨st.cache ++ (if enabled = true then [((hu.1, tdy), html)] else []),
                    st.fetchCalls + 1⟩) := by
            simp only [detailsFold, if_pos hall, hfetch, hnet, hhtml, if_pos, hcache]
          rw [hstep, ih res _ hndr hmiss']
          have hFH : freshHall net ex kw_list allowed hu = none := by
            simp [freshHall, hall, hnet, hhtml]
          rw [show (hu :: rest).filterMap (freshHall net ex kw_list allowed)
              = rest.filterMap (freshHall net ex kw_list allowed) by
            rw [List.filterMap_cons, hFH]]
          rw [hconsFI, hconsFilter]
          simp only [List.length_cons, List.append_assoc, Except.ok.injEq, Prod.mk.injEq,
            CacheState.mk.injEq]
          exact ⟨trivial, trivial, by omega⟩
        · have hhtml' : html.isEmpty = false := by simpa using hhtml
          by_cases hm0 : (_find_keyword_details_from_items (ex html) kw_list).isEmpty = true
          · have hstep : detailsFold enabled tdy net (okExtract ex) kw_list allowed
                (hu :: rest) (res, st)
                = detailsFold enabled tdy net (okExtract ex) kw_list allowed rest
                    (res, ⟨st.cache ++ (if enabled = true then [((hu.1, tdy), html)] else []),
                      st.fetchCalls + 1⟩) := by
              simp only [detailsFold, if_pos hall, hfetch, hnet, hhtml', okExtract,
                Bool.false_eq_true, if_false, hm0, if_pos, hcache]
            rw [hstep, ih res _ hndr hmiss']
            have hFH : freshHall net ex kw_list allowed hu = none := by
              simp [freshHall, hall, hnet, hhtml', hm0]
            rw [show (hu :: rest).filterMap (freshHall net ex kw_list allowed)
                = rest.filterMap (freshHall net ex kw_list allowed) by
              rw [List.filterMap_cons, hFH]]
            rw [hconsFI, hconsFilter]
            simp only [List.length_cons, List.append_assoc, Except.ok.injEq, Prod.mk.injEq,
              CacheState.mk.injEq]
            exact ⟨trivial, trivial, by omega⟩
          · have hm0' : (_find_keyword_details_from_items (ex html) kw_list).isEmpty = false := by
              simpa using hm0
            have hstep : detailsFold enabled tdy net (okExtract ex) kw_list allowed
                (hu :: rest) (res, st)
                = detailsFold enabled tdy net (okExtract ex) kw_list allowed rest
                    (res ++ [(hu.1, _find_keyword_details_from_items (ex html) kw_list)],
                     ⟨st.cache ++ (if enabled = true then [((hu.1, tdy), html)] else []),
                      st.fetchCalls + 1⟩) := by
              simp only [detailsFold, if_pos hall, hfetch, hnet, hhtml', okExtract,
                Bool.false_eq_true, if_false, hm0', hcache]
            rw [hstep, ih _ _ hndr hmiss']
            have hFH : freshHall net ex kw_list allowed hu
                = some (hu.1, _find_keyword_details_from_items (ex html) kw_list) := by
              simp [freshHall, hall, hnet, hhtml', hm0']
            rw [show (hu :: rest).filterMap (freshHall net ex kw_list allowed)
                = (hu.1, _find_keyword_details_from_items (ex html) kw_list)
                  :: rest.filterMap (freshHall net ex kw_list allowed) by
              rw [List.filterMap_cons, hFH]]
            rw [hconsFI, hconsFilter]
            simp only [List.length_cons, List.append_assoc, List.singleton_append,
              Except.ok.injEq, Prod.mk.injEq, CacheState.mk.injEq]
            exact ⟨trivial, trivial, by omega⟩
    · have hstep : detailsFold enabled tdy net (okExtract ex) kw_list allowed
          (hu :: rest) (res, st)
          = detailsFold enabled tdy net (okExtract ex) kw_list allowed rest (res, st) := by
        simp only [detailsFold, if_neg hall]
      rw [hstep, ih res st hndr (fun he p hp hpall => hmiss he p (by simp [hp]) hpall)]
      have hFH : freshHall net ex kw_list allowed hu = none := by
        simp [freshHall, hall]
      have hFI : freshInsert enabled tdy net allowed hu = none := by
        unfold freshInsert
        rw [if_neg (by simp [hall])]
      rw [show (hu :: rest).filterMap (freshHall net ex kw_list allowed)
          = rest.filterMap (freshHall net ex kw_list allowed) by
        rw [List.filterMap_cons, hFH]]
      rw [show (hu :: rest).filterMap (freshInsert enabled tdy net allowed)
          = rest.filterMap (freshInsert enabled tdy net allowed) by
        rw [List.filterMap_cons, hFI]]
      rw [show (hu :: rest).filter (fun p => decide (p.1 ∈ allowed))
          = rest.filter (fun p => decide (p.1 ∈ allowed)) by
        rw [List.filter_cons, if_neg (by simp [hall])]]

/-- A run of the per-hall loop in which every allowed hall hits a cache
entry holding the non-empty document doc hall: results are as if fetched
from a network serving doc, and the state is completely unchanged. -/
theorem detailsFold_allhit (tdy : Nat) (net : Str → Except Unit Str) (ex : Str → ItemsByMeal)
    (kw_list allowed : List Str) (doc : Str → Str) :
    ∀ (l : List (Str × Str)) (res : HallResults) (st : CacheState),
      (∀ p ∈ l, p.1 ∈ allowed →
        cacheLookup st.cache (p.1, tdy) = some (doc p.1) ∧ (doc p.1).isEmpty = false) →
      detailsFold true tdy net (okExtract ex) kw_list allowed l (res, st)
        = Except.ok
            (res ++ l.filterMap (freshHall (fun h => Except.ok (doc h)) ex kw_list allowed),
             st) := by
  intro l
  induction l with
  | nil =>
    intro res st _
    simp [detailsFold]
  | cons hu rest ih =>
    intro res st hhit
    by_cases hall : hu.1 ∈ allowed
    · obtain ⟨hv, hvne⟩ := hhit hu (by simp) hall
      have hfetch := fetch_menu_hit tdy net hu.1 st (doc hu.1) hv hvne
      by_cases hm0 : (_find_keyword_details_from_items (ex (doc hu.1)) kw_list).isEmpty = true
      · have hstep : detailsFold true tdy net (okExtract ex) kw_list allowed
            (hu :: rest) (res, st)
            = detailsFold true tdy net (okExtract ex) kw_list allowed rest (res, st) := by
          simp only [detailsFold, if_pos hall, hfetch, hvne, okExtract, Bool.false_eq_true,
            if_false, hm0, if_pos]
        rw [hstep, ih res st (fun p hp hpall => hhit p (by simp [hp]) hpall)]
        have hFH : freshHall (fun h => Except.ok (doc h)) ex kw_list allowed hu = none := by
          simp [freshHall, hall, hvne, hm0]
        rw [show (hu :: rest).filterMap (freshHall (fun h => Except.ok (doc h)) ex kw_list allowed)
            = rest.filterMap (freshHall (fun h => Except.ok (doc h)) ex kw_list allowed) by
          rw [List.filterMap_cons, hFH]]
      · have hm0' : (_find_keyword_details_from_items (ex (doc hu.1)) kw_list).isEmpty = false := by
          simpa using hm0
        have hstep : detailsFold true tdy net (okExtract ex) kw_list allowed
            (hu :: rest) (res, st)
            = detailsFold true tdy net (okExtract ex) kw_list allowed rest
                (res ++ [(hu.1, _find_keyword_details_from_items (ex (doc hu.1)) kw_list)], st) := by
          simp only [detailsFold, if_pos hall, hfetch, hvne, okExtract, Bool.false_eq_true,
            if_false, hm0']
        rw [hstep, ih _ st (fun p hp hpall => hhit p (by simp [hp]) hpall)]
        have hFH : freshHall (fun h => Except.ok (doc h)) ex kw_list allowed hu
            = some (hu.1, _find_keyword_details_from_items (ex (doc hu.1)) kw_list) := by
          simp [freshHall, hall, hvne, hm0']
        rw [show (hu :: rest).filterMap (freshHall (fun h => Except.ok (doc h)) ex kw_list allowed)
            = (hu.1, _find_keyword_details_from_items (ex (doc hu.1)) kw_list)
              :: rest.filterMap (freshHall (fun h => Except.ok (doc h)) ex kw_list allowed) by
          rw [List.filterMap_cons, hFH]]
        rw [List.append_assoc, List.singleton_append]
    · have hstep : detailsFold true tdy net (okExtract ex) kw_list allowed
          (hu :: rest) (res, st)
          = detailsFold true tdy net (okExtract ex) kw_list allowed rest (res, st) := by
        simp only [detailsFold, if_neg hall]
      rw [hstep, ih res st (fun p hp hpall => hhit p (by simp [hp]) hpall)]
      have hFH : freshHall (fun h => Except.ok (doc h)) ex kw_list allowed hu = none := by
        simp [freshHall, hall]
      rw [show (hu :: rest).filterMap (freshHall (fun h => Except.ok (doc h)) ex kw_list allowed)
          = rest.filterMap (freshHall (fun h => Except.ok (doc h)) ex kw_list allowed) by
        rw [List.filterMap_cons, hFH]]

theorem dining_halls_nodup : (DINING_URLS.map Prod.fst).Nodup := by decide

/-- An engine invocation from the empty cache: closed form of result and
final state. -/
theorem find_keyword_details_fresh (enabled : Bool) (tdy : Nat)
    (net : Str → Except Unit Str) (ex : Str → ItemsByMeal) (keywords : List Str)
    (hf : Option (List Str)) (hkw : (cleanKw keywords).isEmpty = false) :
    find_keyword_details enabled tdy net (okExtract ex) keywords hf emptyCache
      = Except.ok
          (DINING_URLS.filterMap (freshHall net ex (cleanKw keywords) (hallsAllowed hf)),
           ⟨DINING_URLS.filterMap (freshInsert enabled tdy net (hallsAllowed hf)),
            (DINING_URLS.filter (fun p => decide (p.1 ∈ hallsAllowed hf))).length⟩) := by
  simp only [find_keyword_details, hkw, Bool.false_eq_true, if_false]
  have h := detailsFold_fresh enabled tdy net ex (cleanKw keywords) (hallsAllowed hf)
    DINING_URLS [] emptyCache dining_halls_nodup (fun _ _ _ _ => rfl)
  simpa [emptyCache] using h

/-- A cleaned-to-empty keyword list short-circuits: empty result, state
untouched (zero fetch calls). -/
theorem find_keyword_details_empty_kw (enabled : Bool) (tdy : Nat)
    (net : Str → Except Unit Str) (extract : Str → Except Unit ItemsByMeal)
    (keywords : List Str) (hf : Option (List Str)) (st : CacheState)
    (hkw : (cleanKw keywords).isEmpty = true) :
    find_keyword_details enabled tdy net extract keywords hf st = Except.ok ([], st) := by
  simp only [find_keyword_details, hkw, if_true]

/-- The engine behaves identically on a keyword list and on its cleaned
form: cleaning is idempotent. -/
theorem find_keyword_details_clean (enabled : Bool) (tdy : Nat)
    (net : Str → Except Unit Str) (extract : Str → Except Unit ItemsByMeal)
    (keywords : List Str) (hf : Option (List Str)) (st : CacheState) :
    find_keyword_details enabled tdy net extract keywords hf st
      = find_keyword_details enabled tdy net extract (cleanKw keywords) hf st := by
  simp only [find_keyword_details, cleanKw_idem]

/-- Every hall entry an engine run appends is the match table computed by
_find_keyword_details_from_items on some extracted item list. -/
theorem detailsFold_results_shape (enabled : Bool) (tdy : Nat) (net : Str → Except Unit Str)
    (extract : Str → Except Unit ItemsByMeal) (kw_list allowed : List Str) :
    ∀ (l : List (Str × Str)) (res : HallResults) (st : CacheState)
      (out : HallResults × CacheState),
      detailsFold enabled tdy net extract kw_list allowed l (res, st) = Except.ok out →
      ∀ ph ∈ out.1, ph ∈ res ∨
        ∃ items, ph.2 = _find_keyword_details_from_items items kw_list ∧
          (_find_keyword_details_from_items items kw_list).isEmpty = false := by
  intro l
  induction l with
  | nil =>
    intro res st out h ph hph
    simp only [detailsFold, Except.ok.injEq] at h
    left
    rw [← h] at hph
    exact hph
  | cons hu rest ih =>
    intro res st out h ph hph
    simp only [detailsFold] at h
    by_cases hall : hu.1 ∈ allowed
    · rw [if_pos hall] at h
      split at h
      · exact ih _ _ _ h ph hph
      · split at h
        · exact ih _ _ _ h ph hph
        · split at h
          · simp at h
          · rename_i html st' hhtml items hex
            split at h
            · exact ih _ _ _ h ph hph
            · rename_i hm0
              rcases ih _ _ _ h ph hph with hmem | hex2
              · rcases List.mem_append.mp hmem with hmem | hmem
                · left; exact hmem
                · right
                  refine ⟨items, ?_, by simpa using hm0⟩
                  rw [List.mem_singleton.mp hmem]
              · right; exact hex2
    · rw [if_neg hall] at h
      exact ih res st out h ph hph

/-! ### Iterated engine runs and cache transparency -/

/-- n successive matching-engine invocations on the same day with the same
inputs, collecting each invocation's results. -/
def iterEngine (enabled : Bool) (tdy : Nat) (net : Str → Except Unit Str)
    (extract : Str → Except Unit ItemsByMeal) (keywords : List Str)
    (hf : Option (List Str)) : Nat → CacheState → Except Unit (List HallResults × CacheState)
  | 0, st => Except.ok ([], st)
  | Nat.succ n, st =>
    match find_keyword_details enabled tdy net extract keywords hf st with
    | Except.error e => Except.error e
    | Except.ok (r, st') =>
      match iterEngine enabled tdy net extract keywords hf n st' with
      | Except.error e => Except.error e
      | Except.ok (rs, stF) => Except.ok (r :: rs, stF)

/-- Number of halls the engine fetches for a given hall filter. -/
def allowedCount (hf : Option (List Str)) : Nat :=
  (DINING_URLS.filter (fun p => decide (p.1 ∈ hallsAllowed hf))).length

theorem cacheLookup_freshInserts (tdy : Nat) (net : Str → Except Unit Str)
    (allowed : List Str) (doc : Str → Str) (hnet : ∀ h, net h = Except.ok (doc h)) :
    ∀ (l : List (Str × Str)) (h : Str), h ∈ l.map Prod.fst → h ∈ allowed →
      cacheLookup (l.filterMap (freshInsert true tdy net allowed)) (h, tdy) = some (doc h) := by
  intro l
  induction l with
  | nil => intro h hm _; simp at hm
  | cons hu rest ih =>
    intro h hm hall
    by_cases hh : h = hu.1
    · subst hh
      have hFI : freshInsert true tdy net allowed hu = some ((hu.1, tdy), doc hu.1) := by
        unfold freshInsert
        rw [if_pos ⟨rfl, hall⟩]
        simp only [hnet hu.1]
      rw [List.filterMap_cons, hFI]
      simp [cacheLookup]
    · have hm' : h ∈ rest.map Prod.fst := by
        rw [List.map_cons, List.mem_cons] at hm
        exact hm.resolve_left hh
      rw [List.filterMap_cons]
      cases hFI : freshInsert true tdy net allowed hu with
      | none => exact ih h hm' hall
      | some e =>
        have hkey : e.1 = (hu.1, tdy) := by
          unfold freshInsert at hFI
          split at hFI
          · simp only [hnet hu.1] at hFI
            rw [← Option.some.inj hFI]
          · simp at hFI
        rw [show cacheLookup (e :: rest.filterMap (freshInsert true tdy net allowed)) (h, tdy)
            = cacheLookup (rest.filterMap (freshInsert true tdy net allowed)) (h, tdy) by
          rw [cacheLookup, if_neg (by rw [hkey]; simp [Ne.symm hh])]]
        exact ih h hm' hall

/-- An engine invocation against a fully-populated consistent cache:
identical results, state untouched. -/
theorem find_keyword_details_allhit (tdy : Nat) (net : Str → Except Unit Str)
    (ex : Str → ItemsByMeal) (keywords : List Str) (hf : Option (List Str))
    (doc : Str → Str) (st : CacheState) (hkw : (cleanKw keywords).isEmpty = false)
    (hhit : ∀ p ∈ DINING_URLS, p.1 ∈ hallsAllowed hf →
      cacheLookup st.cache (p.1, tdy) = some (doc p.1) ∧ (doc p.1).isEmpty = false) :
    find_keyword_details true tdy net (okExtract ex) keywords hf st
      = Except.ok
          (DINING_URLS.filterMap
            (freshHall (fun h => Except.ok (doc h)) ex (cleanKw keywords) (hallsAllowed hf)),
           st) := by
  simp only [find_keyword_details, hkw, Bool.false_eq_true, if_false]
  have h := detailsFold_allhit tdy net ex (cleanKw keywords) (hallsAllowed hf) doc
    DINING_URLS [] st hhit
  simpa using h

theorem freshInsert_disabled (tdy : Nat) (net : Str → Except Unit Str) (allowed : List Str)
    (p : Str × Str) : freshInsert false tdy net allowed p = none := by
  unfold freshInsert
  rw [if_neg (by simp)]

/-- An engine invocation with caching disabled: fresh results, cache
untouched, one network call per allowed hall. -/
theorem find_keyword_details_disabled (tdy : Nat) (net : Str → Except Unit Str)
    (ex : Str → ItemsByMeal) (keywords : List Str) (hf : Option (List Str))
    (st : CacheState) (hkw : (cleanKw keywords).isEmpty = false) :
    find_keyword_details false tdy net (okExtract ex) keywords hf st
      = Except.ok
          (DINING_URLS.filterMap (freshHall net ex (cleanKw keywords) (hallsAllowed hf)),
           ⟨st.cache, st.fetchCalls + allowedCount hf⟩) := by
  simp only [find_keyword_details, hkw, Bool.false_eq_true, if_false]
  have h := detailsFold_fresh false tdy net ex (cleanKw keywords) (hallsAllowed hf)
    DINING_URLS [] st dining_halls_nodup (fun he => absurd he (by simp))
  have hnone : DINING_URLS.filterMap (freshInsert false tdy net (hallsAllowed hf)) = [] := by
    induction DINING_URLS with
    | nil => rfl
    | cons a t iht => rw [List.filterMap_cons, freshInsert_disabled, iht]
  rw [hnone] at h
  simpa [allowedCount] using h

/-- When the engine's per-invocation behavior fixes the state, iteration
replicates the single-invocation result. -/
theorem iterEngine_const (enabled : Bool) (tdy : Nat) (net : Str → Except Unit Str)
    (extract : Str → Except Unit ItemsByMeal) (keywords : List Str) (hf : Option (List Str))
    (R : HallResults) (st : CacheState)
    (hconst : find_keyword_details enabled tdy net extract keywords hf st
      = Except.ok (R, st)) :
    ∀ n, iterEngine enabled tdy net extract keywords hf n st
      = Except.ok (List.replicate n R, st) := by
  intro n
  induction n with
  | zero => rfl
  | succ m ih =>
    rw [show iterEngine enabled tdy net extract keywords hf (m + 1) st
        = (match find_keyword_details enabled tdy net extract keywords hf st with
           | Except.error e => Except.error e
           | Except.ok (r, st') =>
             match iterEngine enabled tdy net extract keywords hf m st' with
             | Except.error e => Except.error e
             | Except.ok (rs, stF) => Except.ok (r :: rs, stF)) from rfl]
    simp only [hconst, ih, List.replicate_succ]

theorem iterEngine_disabled (tdy : Nat) (net : Str → Except Unit Str)
    (ex : Str → ItemsByMeal) (keywords : List Str) (hf : Option (List Str))
    (hkw : (cleanKw keywords).isEmpty = false) :
    ∀ (n : Nat) (st : CacheState),
      iterEngine false tdy net (okExtract ex) keywords hf n st
        = Except.ok
            (List.replicate n
              (DINING_URLS.filterMap (freshHall net ex (cleanKw keywords) (hallsAllowed hf))),
             ⟨st.cache, st.fetchCalls + n * allowedCount hf⟩) := by
  intro n
  induction n with
  | zero => intro st; simp [iterEngine]
  | succ m ih =>
    intro st
    simp only [iterEngine, find_keyword_details_disabled tdy net ex keywords hf st hkw, ih,
      List.replicate_succ, Except.ok.injEq, Prod.mk.injEq, CacheState.mk.injEq]
    refine ⟨trivial, trivial, by ring⟩

/-- C6: for a fixed non-empty document per hall and any keyword list that
survives cleaning, running the matching engine n times from an empty cache
with caching enabled and with caching disabled produces identical result
lists; only the network fetch count differs: one batch of fetches total
versus one batch per invocation. -/
theorem cache_transparency (n tdy : Nat) (doc : Str → Str) (ex : Str → ItemsByMeal)
    (keywords : List Str) (hf : Option (List Str))
    (hdoc : ∀ h, (doc h).isEmpty = false) (hkw : (cleanKw keywords).isEmpty = false) :
    ∃ (R : HallResults) (stE stD : CacheState),
      iterEngine true tdy (fun h => Except.ok (doc h)) (okExtract ex) keywords hf n emptyCache
        = Except.ok (List.replicate n R, stE) ∧
      iterEngine false tdy (fun h => Except.ok (doc h)) (okExtract ex) keywords hf n emptyCache
        = Except.ok (List.replicate n R, stD) ∧
      stE.fetchCalls = (if n = 0 then 0 else allowedCount hf) ∧
      stD.fetchCalls = n * allowedCount hf := by
  cases n with
  | zero =>
    refine ⟨[], emptyCache, emptyCache, ?_, ?_, ?_, ?_⟩ <;> simp [iterEngine, emptyCache]
  | succ m =>
    have hfresh := find_keyword_details_fresh true tdy (fun h => Except.ok (doc h)) ex
      keywords hf hkw
    have hhit : ∀ p ∈ DINING_URLS, p.1 ∈ hallsAllowed hf →
        cacheLookup (DINING_URLS.filterMap
          (freshInsert true tdy (fun h => Except.ok (doc h)) (hallsAllowed hf))) (p.1, tdy)
          = some (doc p.1) ∧ (doc p.1).isEmpty = false := by
      intro p hp hpall
      exact ⟨cacheLookup_freshInserts tdy _ (hallsAllowed hf) doc (fun _ => rfl)
        DINING_URLS p.1 (List.mem_map_of_mem Prod.fst hp) hpall, hdoc p.1⟩
    have hconst := find_keyword_details_allhit tdy (fun h => Except.ok (doc h)) ex keywords hf
      doc ⟨DINING_URLS.filterMap
          (freshInsert true tdy (fun h => Except.ok (doc h)) (hallsAllowed hf)),
        (DINING_URLS.filter (fun p => decide (p.1 ∈ hallsAllowed hf))).length⟩ hkw hhit
    have hiter := iterEngine_const true tdy (fun h => Except.ok (doc h)) (okExtract ex)
      keywords hf _ _ hconst m
    refine ⟨DINING_URLS.filterMap
        (freshHall (fun h => Except.ok (doc h)) ex (cleanKw keywords) (hallsAllowed hf)),
      ⟨DINING_URLS.filterMap
          (freshInsert true tdy (fun h => Except.ok (doc h)) (hallsAllowed hf)),
        (DINING_URLS.filter (fun p => decide (p.1 ∈ hallsAllowed hf))).length⟩,
      ⟨emptyCache.cache, emptyCache.fetchCalls + (m + 1) * allowedCount hf⟩,
      ?_, ?_, ?_, ?_⟩
    · simp only [iterEngine, hfresh, hiter, List.replicate_succ]
    · exact iterEngine_disabled tdy (fun h => Except.ok (doc h)) ex keywords hf hkw
        (m + 1) emptyCache
    · simp [allowedCount]
    · simp [emptyCache]

/-! ### Claim theorems on the matcher and the engine -/

/-- C2: the phrase matcher returns false on an empty or over-long phrase,
and on a non-empty phrase returns true exactly when some start index gives
an equal contiguous token slice; in particular a reversed-order phrase does
not match. -/
theorem contains_phrase_spec (tokens phrase_tokens : List Str) :
    (_contains_sequence tokens phrase_tokens = true ↔
      phrase_tokens ≠ [] ∧ ∃ i, i + phrase_tokens.length ≤ tokens.length ∧
        (tokens.drop i).take phrase_tokens.length = phrase_tokens) ∧
    (phrase_tokens = [] → _contains_sequence tokens phrase_tokens = false) ∧
    (tokens.length < phrase_tokens.length → _contains_sequence tokens phrase_tokens = false) ∧
    _contains_sequence
      ["jalapeno".toList, "poppers".toList, "are".toList, "great".toList]
      ["poppers".toList, "jalapeno".toList] = false ∧
    _contains_sequence
      ["jalapeno".toList, "poppers".toList, "are".toList, "great".toList]
      ["jalapeno".toList, "poppers".toList] = true := by
  refine ⟨⟨?_, ?_⟩, ?_, ?_, by decide, by decide⟩
  · intro h
    unfold _contains_sequence at h
    by_cases hp : phrase_tokens.isEmpty = true
    · rw [if_pos hp] at h
      exact absurd h (by simp)
    · rw [if_neg hp] at h
      by_cases hl : tokens.length < phrase_tokens.length
      · rw [if_pos hl] at h
        exact absurd h (by simp)
      · rw [if_neg hl] at h
        obtain ⟨i, hmem, hdec⟩ := List.any_eq_true.mp h
        rw [List.mem_range] at hmem
        rw [decide_eq_true_eq] at hdec
        refine ⟨by simpa [List.isEmpty_iff] using hp, i, by omega, hdec⟩
  · rintro ⟨hpne, i, hle, heq⟩
    unfold _contains_sequence
    rw [if_neg (by simpa [List.isEmpty_iff] using hpne)]
    rw [if_neg (by omega)]
    apply List.any_eq_true.mpr
    exact ⟨i, List.mem_range.mpr (by omega), by simp [heq]⟩
  · intro hp
    subst hp
    simp [_contains_sequence]
  · intro hl
    unfold _contains_sequence
    by_cases hp : phrase_tokens.isEmpty = true
    · rw [if_pos hp]
    · rw [if_neg hp, if_pos hl]

/-- C8: the engine sees only the cleaned keyword list (stripped, empties
dropped, first-occurrence deduplicated); a list that cleans to empty yields
an empty result with the state — in particular the fetch-call count —
untouched; cleaning preserves first-occurrence order, as on the spec's
example. -/
theorem keyword_cleaning_spec (enabled : Bool) (tdy : Nat) (net : Str → Except Unit Str)
    (extract : Str → Except Unit ItemsByMeal) (keywords : List Str)
    (hf : Option (List Str)) (st : CacheState) :
    (find_keyword_details enabled tdy net extract keywords hf st
      = find_keyword_details enabled tdy net extract (cleanKw keywords) hf st) ∧
    (cleanKw keywords = [] →
      find_keyword_details enabled tdy net extract keywords hf st = Except.ok ([], st)) ∧
    cleanKw ["shrimp".toList, " ".toList, "jalapeno".toList, "shrimp".toList]
      = ["shrimp".toList, "jalapeno".toList] := by
  refine ⟨find_keyword_details_clean enabled tdy net extract keywords hf st, ?_, by decide⟩
  intro h
  exact find_keyword_details_empty_kw enabled tdy net extract keywords hf st (by simp [h])

theorem freshHall_some (net : Str → Except Unit Str) (ex : Str → ItemsByMeal)
    (kw allowed : List Str) (p : Str × Str) (hall : Str) (hm : Matches)
    (h : freshHall net ex kw allowed p = some (hall, hm)) :
    hall = p.1 ∧ ∃ html, net p.1 = Except.ok html ∧
      hm = _find_keyword_details_from_items (ex html) kw ∧ hm ≠ [] := by
  unfold freshHall at h
  split at h
  · split at h
    · simp at h
    · rename_i html hnet
      split at h
      · simp at h
      · split at h
        · simp at h
        · rename_i hm0
          have hinj := Option.some.inj h
          rw [Prod.mk.injEq] at hinj
          refine ⟨hinj.1.symm, html, hnet, hinj.2.symm, ?_⟩
          rw [← hinj.2]
          simpa [List.isEmpty_iff] using hm0
  · simp at h

/-- C4: in an engine run from the empty cache, a hall appears in the result
only with a non-empty match table, every recorded keyword has a witnessing
extracted item under that hall that contains the keyword's token phrase,
and the hall's document is the one the network served. -/
theorem match_result_origin (enabled : Bool) (tdy : Nat) (net : Str → Except Unit Str)
    (ex : Str → ItemsByMeal) (keywords : List Str) (hf : Option (List Str))
    (res : HallResults) (st' : CacheState) (hall : Str) (hm : Matches)
    (hrun : find_keyword_details enabled tdy net (okExtract ex) keywords hf emptyCache
      = Except.ok (res, st'))
    (hmem : (hall, hm) ∈ res) :
    hm ≠ [] ∧ ∃ html, net hall = Except.ok html ∧
      ∀ kw meals, (kw, meals) ∈ hm →
        ∃ ml itemsl item, (ml, itemsl) ∈ ex html ∧ item ∈ itemsl ∧
          _contains_sequence (_tokenize item) (_tokenize kw) = true := by
  by_cases hkw : (cleanKw keywords).isEmpty = true
  · rw [find_keyword_details_empty_kw enabled tdy net (okExtract ex) keywords hf
      emptyCache hkw] at hrun
    have hres : res = [] := by
      have := Except.ok.inj hrun
      rw [Prod.ext_iff] at this
      exact this.1.symm
    rw [hres] at hmem
    simp at hmem
  · have hkw' : (cleanKw keywords).isEmpty = false := by simpa using hkw
    rw [find_keyword_details_fresh enabled tdy net ex keywords hf hkw'] at hrun
    have hres : res = DINING_URLS.filterMap
        (freshHall net ex (cleanKw keywords) (hallsAllowed hf)) := by
      have := Except.ok.inj hrun
      rw [Prod.ext_iff] at this
      exact this.1.symm
    rw [hres] at hmem
    obtain ⟨p, _, hsome⟩ := List.mem_filterMap.mp hmem
    obtain ⟨hhall, html, hnet, hhm, hmne⟩ :=
      freshHall_some net ex (cleanKw keywords) (hallsAllowed hf) p hall hm hsome
    refine ⟨hmne, html, hhall ▸ hnet, ?_⟩
    intro kw meals hkwmem
    rw [hhm] at hkwmem
    obtain ⟨_, ml, itemsl, item, hml, hitem, hcont⟩ :=
      fromItems_key_origin (ex html) (cleanKw keywords) kw meals hkwmem
    exact ⟨ml, itemsl, item, hml, hitem, hcont⟩

/-- C7 counterexample: an exception raised by the extraction step is not
caught by find_keyword_details — the whole invocation fails instead of
skipping the hall. -/
theorem extraction_error_propagates :
    (find_keyword_details true 0 (fun _ => Except.ok ("menu".toList))
      (fun _ => Except.error ()) ["jalapeno".toList] none emptyCache).toOption = none := by
  rfl

theorem freshHall_congr (net net' : Str → Except Unit Str) (ex : Str → ItemsByMeal)
    (kw allowed : List Str) (p : Str × Str) (h : net' p.1 = net p.1) :
    freshHall net' ex kw allowed p = freshHall net ex kw allowed p := by
  unfold freshHall
  rw [h]

/-- C7 (amended): a fetch failure for one hall is caught inside the per-hall
loop: the engine still returns normally, the failing hall is absent, and
every other hall's result is exactly what it would have been with a working
network for that hall. -/
theorem fetch_failure_isolated (enabled : Bool) (tdy : Nat)
    (net net' : Str → Except Unit Str) (ex : Str → ItemsByMeal) (keywords : List Str)
    (hf : Option (List Str)) (h₀ : Str)
    (hfail : net' h₀ = Except.error ())
    (hagree : ∀ h, h ≠ h₀ → net' h = net h) :
    ∃ (res : HallResults) (st₁ st₂ : CacheState),
      find_keyword_details enabled tdy net (okExtract ex) keywords hf emptyCache
        = Except.ok (res, st₁) ∧
      find_keyword_details enabled tdy net' (okExtract ex) keywords hf emptyCache
        = Except.ok (res.filter (fun p => !(decide (p.1 = h₀))), st₂) := by
  by_cases hkw : (cleanKw keywords).isEmpty = true
  · refine ⟨[], emptyCache, emptyCache, ?_, ?_⟩
    · exact find_keyword_details_empty_kw enabled tdy net (okExtract ex) keywords hf
        emptyCache hkw
    · exact find_keyword_details_empty_kw enabled tdy net' (okExtract ex) keywords hf
        emptyCache hkw
  · have hkw' : (cleanKw keywords).isEmpty = false := by simpa using hkw
    have hfiltered : ∀ l : List (Str × Str),
        l.filterMap (freshHall net' ex (cleanKw keywords) (hallsAllowed hf))
          = (l.filterMap (freshHall net ex (cleanKw keywords) (hallsAllowed hf))).filter
              (fun p => !(decide (p.1 = h₀))) := by
      intro l
      induction l with
      | nil => rfl
      | cons p t iht =>
        rw [List.filterMap_cons, List.filterMap_cons]
        by_cases hp : p.1 = h₀
        · have hnone : freshHall net' ex (cleanKw keywords) (hallsAllowed hf) p = none := by
            unfold freshHall
            split
            · rw [hp, hfail]
            · rfl
          rw [hnone]
          cases hFH : freshHall net ex (cleanKw keywords) (hallsAllowed hf) p with
          | none => exact iht
          | some x =>
            obtain ⟨x1, x2⟩ := x
            have hx1 : x1 = p.1 :=
              (freshHall_some net ex (cleanKw keywords) (hallsAllowed hf) p x1 x2 hFH).1
            rw [show List.filter (fun p => !(decide (p.1 = h₀)))
                  ((x1, x2) :: t.filterMap (freshHall net ex (cleanKw keywords) (hallsAllowed hf)))
                = List.filter (fun p => !(decide (p.1 = h₀)))
                  (t.filterMap (freshHall net ex (cleanKw keywords) (hallsAllowed hf))) by
              rw [List.filter_cons, if_neg (by simp [hx1, hp])]]
            exact iht
        · rw [freshHall_congr net net' ex (cleanKw keywords) (hallsAllowed hf) p
            (hagree p.1 hp)]
          cases hFH : freshHall net ex (cleanKw keywords) (hallsAllowed hf) p with
          | none => exact iht
          | some x =>
            obtain ⟨x1, x2⟩ := x
            have hx1 : x1 = p.1 :=
              (freshHall_some net ex (cleanKw keywords) (hallsAllowed hf) p x1 x2 hFH).1
            rw [show List.filter (fun p => !(decide (p.1 = h₀)))
                  ((x1, x2) :: t.filterMap (freshHall net ex (cleanKw keywords) (hallsAllowed hf)))
                = (x1, x2) :: List.filter (fun p => !(decide (p.1 = h₀)))
                  (t.filterMap (freshHall net ex (cleanKw keywords) (hallsAllowed hf))) by
              rw [List.filter_cons, if_pos (by simp [hx1, hp])]]
            rw [iht]
    exact ⟨DINING_URLS.filterMap (freshHall net ex (cleanKw keywords) (hallsAllowed hf)),
      _, _,
      find_keyword_details_fresh enabled tdy net ex keywords hf hkw',
      by rw [find_keyword_details_fresh enabled tdy net' ex keywords hf hkw',
        hfiltered DINING_URLS]⟩

/-- C10: a keyword that is non-empty after stripping but has no
alphanumeric characters survives the engine's empty/whitespace filter, yet
its token sequence is empty, the empty phrase never matches, and therefore
it never appears as a key in any match table or any hall's engine
result. -/
theorem symbol_only_keyword_never_matches (k : Str)
    (hne : pyStrip k ≠ []) (htok : _tokenize k = []) :
    cleanKw [k] = [pyStrip k] ∧
    (∀ (items_by_meal : ItemsByMeal) (kws : List Str) (meals : List Str),
      (pyStrip k, meals) ∉ _find_keyword_details_from_items items_by_meal kws) ∧
    (∀ (enabled : Bool) (tdy : Nat) (net : Str → Except Unit Str)
      (extract : Str → Except Unit ItemsByMeal) (keywords : List Str)
      (hf : Option (List Str)) (st : CacheState) (out : HallResults × CacheState),
      find_keyword_details enabled tdy net extract keywords hf st = Except.ok out →
      ∀ hall hm meals, (hall, hm) ∈ out.1 → (pyStrip k, meals) ∉ hm) := by
  have htokstrip : _tokenize (pyStrip k) = [] := by rw [tokenize_pyStrip]; exact htok
  have hnotkey : ∀ (items : ItemsByMeal) (kws : List Str) (meals : List Str),
      (pyStrip k, meals) ∉ _find_keyword_details_from_items items kws := by
    intro items kws meals hmem
    obtain ⟨_, ml, itemsl, item, _, _, hcont⟩ :=
      fromItems_key_origin items kws (pyStrip k) meals hmem
    exact contains_phrase_ne_nil _ _ hcont htokstrip
  refine ⟨?_, hnotkey, ?_⟩
  · have hk : k ≠ [] := fun h => hne (by rw [h]; rfl)
    unfold cleanKw
    rw [show ([k].filter (fun x => !x.isEmpty && !(pyStrip x).isEmpty)) = [k] by
      simp [List.filter_cons, List.isEmpty_iff, hk, hne]]
    rw [show [k].map pyStrip = [pyStrip k] from rfl]
    exact dedupeFirst_of_nodup _ (List.nodup_singleton _)
  · intro enabled tdy net extract keywords hf st out hrun hall hm meals hmem
    simp only [find_keyword_details] at hrun
    by_cases hkw : (cleanKw keywords).isEmpty = true
    · rw [if_pos hkw] at hrun
      have hout : ([] : HallResults) = out.1 := by
        have := Except.ok.inj hrun
        rw [Prod.ext_iff] at this
        exact this.1
      rw [← hout] at hmem
      simp at hmem
    · rw [if_neg hkw] at hrun
      have hshape := detailsFold_results_shape enabled tdy net extract (cleanKw keywords)
        (hallsAllowed hf) DINING_URLS [] st out hrun (hall, hm) hmem
      rcases hshape with hin | ⟨items, hhm, _⟩
      · simp at hin
      · intro hx
        rw [show hm = _find_keyword_details_from_items items (cleanKw keywords) from hhm] at hx
        exact hnotkey items (cleanKw keywords) meals hx

/-! ### find_keyword_snippets and the line-scan fallback -/

/-- Inner item loop of find_keyword_snippets: append each matching,
not-yet-collected item, stopping once max_lines snippets are collected. -/
def collectFromItems (kw_list : List Str) (maxLines : Nat) : List Str → List Str → List Str
  | [], acc => acc
  | item :: rest, acc =>
    let acc' := if (kw_list.any fun kw => _contains_sequence (_tokenize item) (_tokenize kw))
        && !(decide (item ∈ acc)) then acc ++ [item] else acc
    if maxLines ≤ acc'.length then acc' else collectFromItems kw_list maxLines rest acc'

/-- Outer meal-section loop of the snippet collection. -/
def collectSnippets (kw_list : List Str) (maxLines : Nat) : ItemsByMeal → List Str → List Str
  | [], acc => acc
  | p :: rest, acc =>
    let acc' := collectFromItems kw_list maxLines p.2 acc
    if maxLines ≤ acc'.length then acc' else collectSnippets kw_list maxLines rest acc'

/-- Per-hall loop of dining_checker.find_keyword_snippets: same fetch and
guard structure as find_keyword_details, but when the extractor yields only
empty meal sections it falls back to scanning the document's non-empty
stripped text lines as "Unspecified" items. -/
def snippetsFold (enabled : Bool) (tdy : Nat) (net : Str → Except Unit Str)
    (extract : Str → Except Unit ItemsByMeal) (textLines : Str → List Str)
    (kw_list allowed : List Str) (maxLines : Nat) :
    List (Str × Str) → (List (Str × List Str)) × CacheState →
      Except Unit ((List (Str × List Str)) × CacheState)
  | [], acc => Except.ok acc
  | hu :: rest, acc =>
    if hu.1 ∈ allowed then
      match fetch_menu enabled tdy net hu.1 acc.2 with
      | (Except.error _, st') =>
        snippetsFold enabled tdy net extract textLines kw_list allowed maxLines rest (acc.1, st')
      | (Except.ok html, st') =>
        if html.isEmpty then
          snippetsFold enabled tdy net extract textLines kw_list allowed maxLines rest (acc.1, st')
        else
          match extract html with
          | Except.error e => Except.error e
          | Except.ok items0 =>
            if (collectSnippets kw_list maxLines
                (if items0.all (fun p => p.2.isEmpty) then
                  [("Unspecified".toList,
                    ((textLines html).map pyStrip).filter (fun l => !l.isEmpty))]
                 else items0) []).isEmpty then
              snippetsFold enabled tdy net extract textLines kw_list allowed maxLines rest
                (acc.1, st')
            else
              snippetsFold enabled tdy net extract textLines kw_list allowed maxLines rest
                (acc.1 ++ [(hu.1, collectSnippets kw_list maxLines
                  (if items0.all (fun p => p.2.isEmpty) then
                    [("Unspecified".toList,
                      ((textLines html).map pyStrip).filter (fun l => !l.isEmpty))]
                   else items0) [])], st')
    else snippetsFold enabled tdy net extract textLines kw_list allowed maxLines rest acc

/-- dining_checker.find_keyword_snippets, with soup.get_text().splitlines()
modelled by the textLines parameter. -/
def find_keyword_snippets (enabled : Bool) (tdy : Nat) (net : Str → Except Unit Str)
    (extract : Str → Except Unit ItemsByMeal) (textLines : Str → List Str)
    (keywords : List Str) (halls_filter : Option (List Str)) (max_lines : Nat)
    (st : CacheState) : Except Unit ((List (Str × List Str)) × CacheState) :=
  let kw_list := cleanKw keywords
  if kw_list.isEmpty then Except.ok ([], st)
  else snippetsFold enabled tdy net extract textLines kw_list (hallsAllowed halls_filter)
    max_lines DINING_URLS ([], st)

/-- Modelled from the spec: the claim's version of find_keyword_details, in
which a document whose extraction yields only empty meal sections falls
back to treating every non-empty stripped line of visible text as an
"Unspecified" item before keyword matching.  The source's
find_keyword_details has no such fallback; this definition exists only to
compare the two. -/
def find_keyword_details_spec (enabled : Bool) (tdy : Nat) (net : Str → Except Unit Str)
    (extract : Str → Except Unit ItemsByMeal) (textLines : Str → List Str)
    (keywords : List Str) (halls_filter : Option (List Str)) (st : CacheState) :
    Except Unit (HallResults × CacheState) :=
  find_keyword_details enabled tdy net
    (fun html =>
      match extract html with
      | Except.error e => Except.error e
      | Except.ok items0 =>
        Except.ok
          (if items0.all (fun p => p.2.isEmpty) then
            [("Unspecified".toList,
              ((textLines html).map pyStrip).filter (fun l => !l.isEmpty))]
           else items0))
    keywords halls_filter st

/-- C3 counterexample: on a document whose extraction is empty but whose
visible text contains the keyword, find_keyword_details returns no matches,
while the spec's fallback version returns the match — so find_keyword_details
does not apply the line-scan fallback. -/
theorem details_no_line_fallback :
    ((find_keyword_details true 0 (fun _ => Except.ok ("doc".toList))
        (okExtract (fun _ => [])) ["jalapeno".toList] (some ["Simmons Hall".toList])
        emptyCache).toOption.map Prod.fst = some []) ∧
    ((find_keyword_details_spec true 0 (fun _ => Except.ok ("doc".toList))
        (okExtract (fun _ => [])) (fun _ => ["jalapeno poppers".toList]) ["jalapeno".toList]
        (some ["Simmons Hall".toList]) emptyCache).toOption.map Prod.fst
      = some [("Simmons Hall".toList, [("jalapeno".toList, ["Unspecified".toList])])]) := by
  exact ⟨by rfl, by rfl⟩

theorem fromItems_all_empty (items : ItemsByMeal) (kws : List Str)
    (h : items.all (fun p => p.2.isEmpty) = true) :
    _find_keyword_details_from_items items kws = [] := by
  simp only [_find_keyword_details_from_items]
  split
  · rfl
  · refine foldl_preserve (fun m => m = []) _ items [] rfl ?_
    intro m p hp hm
    have hp2 : p.2 = [] := by
      rw [List.all_eq_true] at h
      simpa [List.isEmpty_iff] using h p hp
    rw [hp2, hm]
    rfl

theorem detailsFold_no_matches (enabled : Bool) (tdy : Nat) (net : Str → Except Unit Str)
    (ex : Str → ItemsByMeal) (kw_list allowed : List Str)
    (hnone : ∀ html, _find_keyword_details_from_items (ex html) kw_list = []) :
    ∀ (l : List (Str × Str)) (res : HallResults) (st : CacheState),
      ∃ st', detailsFold enabled tdy net (okExtract ex) kw_list allowed l (res, st)
        = Except.ok (res, st') := by
  intro l
  induction l with
  | nil => intro res st; exact ⟨st, rfl⟩
  | cons hu rest ih =>
    intro res st
    by_cases hall : hu.1 ∈ allowed
    · rcases hfm : fetch_menu enabled tdy net hu.1 st with ⟨fr, st'⟩
      cases fr with
      | error e =>
        obtain ⟨st'', hst⟩ := ih res st'
        exact ⟨st'', by simp only [detailsFold, if_pos hall, hfm, hst]⟩
      | ok html =>
        by_cases hh : html.isEmpty = true
        · obtain ⟨st'', hst⟩ := ih res st'
          exact ⟨st'', by simp only [detailsFold, if_pos hall, hfm, hh, if_true, hst]⟩
        · have hh' : html.isEmpty = false := by simpa using hh
          obtain ⟨st'', hst⟩ := ih res st'
          refine ⟨st'', ?_⟩
          simp only [detailsFold, if_pos hall, hfm, hh', Bool.false_eq_true, if_false,
            okExtract, hnone html, List.isEmpty_nil, if_true, hst]
    · obtain ⟨st'', hst⟩ := ih res st
      exact ⟨st'', by simp only [detailsFold, if_neg hall, hst]⟩

theorem snippetsFold_fallback (enabled : Bool) (tdy : Nat) (net : Str → Except Unit Str)
    (ex : Str → ItemsByMeal) (textLines : Str → List Str) (kw_list allowed : List Str)
    (maxLines : Nat) (hempty : ∀ d, (ex d).all (fun p => p.2.isEmpty) = true) :
    ∀ (l : List (Str × Str)) (acc : (List (Str × List Str)) × CacheState),
      snippetsFold enabled tdy net (okExtract ex) textLines kw_list allowed maxLines l acc
        = snippetsFold enabled tdy net
            (okExtract (fun d =>
              [("Unspecified".toList,
                ((textLines d).map pyStrip).filter (fun l => !l.isEmpty))]))
            textLines kw_list allowed maxLines l acc := by
  intro l
  induction l with
  | nil => intro acc; rfl
  | cons hu rest ih =>
    intro acc
    by_cases hall : hu.1 ∈ allowed
    · rcases hfm : fetch_menu enabled tdy net hu.1 acc.2 with ⟨fr, st'⟩
      cases fr with
      | error e =>
        simp only [snippetsFold, if_pos hall, hfm]
        exact ih (acc.1, st')
      | ok html =>
        by_cases hh : html.isEmpty = true
        · simp only [snippetsFold, if_pos hall, hfm, hh, if_true]
          exact ih (acc.1, st')
        · have hh' : html.isEmpty = false := by simpa using hh
          simp only [snippetsFold, if_pos hall, hfm, hh', Bool.false_eq_true, if_false,
            okExtract, hempty html, if_true, ite_self]
          split
          · exact ih (acc.1, st')
          · exact ih (acc.1 ++ [(hu.1, _)], st')
    · simp only [snippetsFold, if_neg hall]
      exact ih acc

/-- C3 (amended): when both extraction strategies yield nothing, only
find_keyword_snippets falls back to scanning the document's non-empty
stripped text lines as "Unspecified" items; find_keyword_details applies no
such fallback and simply reports no matches for any hall. -/
theorem line_fallback_only_in_snippets (enabled : Bool) (tdy : Nat)
    (net : Str → Except Unit Str) (ex : Str → ItemsByMeal) (textLines : Str → List Str)
    (keywords : List Str) (hf : Option (List Str)) (maxLines : Nat) (st : CacheState)
    (hempty : ∀ d, (ex d).all (fun p => p.2.isEmpty) = true) :
    (find_keyword_snippets enabled tdy net (okExtract ex) textLines keywords hf maxLines st
      = find_keyword_snippets enabled tdy net
          (okExtract (fun d =>
            [("Unspecified".toList,
              ((textLines d).map pyStrip).filter (fun l => !l.isEmpty))]))
          textLines keywords hf maxLines st) ∧
    (∃ st', find_keyword_details enabled tdy net (okExtract ex) keywords hf st
      = Except.ok ([], st')) := by
  constructor
  · simp only [find_keyword_snippets]
    split
    · rfl
    · exact snippetsFold_fallback enabled tdy net ex textLines (cleanKw keywords)
        (hallsAllowed hf) maxLines hempty DINING_URLS ([], st)
  · by_cases hkw : (cleanKw keywords).isEmpty = true
    · exact ⟨st, find_keyword_details_empty_kw enabled tdy net (okExtract ex) keywords hf
        st hkw⟩
    · simp only [find_keyword_details, if_neg hkw]
      exact detailsFold_no_matches enabled tdy net ex (cleanKw keywords) (hallsAllowed hf)
        (fun html => fromItems_all_empty (ex html) (cleanKw keywords) (hempty html))
        DINING_URLS [] st

/-! ### The notification dispatcher (run_notifications.py) -/

/-- One row of the subscriptions table joined with its user's email. -/
structure Subscription where
  email : Str
  keywords : List Str
  halls : Option (List Str)
  last_notified : Option Nat
deriving DecidableEq

/-- Dispatcher run state: successfully dispatched e-mails in order, the
database rows, and whether the run aborted on an uncaught exception. -/
structure RunState where
  sent : List Str
  subsDb : List Subscription
  aborted : Bool
deriving DecidableEq

/-- run_notifications.update_last_notified: SQL UPDATE of every
subscription row belonging to the user with this email. -/
def update_last_notified (db : List Subscription) (email : Str) (tdy : Nat) :
    List Subscription :=
  db.map (fun s => if s.email = email then { s with last_notified := some tdy } else s)

/-- One iteration of run_notifications.main's subscription loop.  send
models send_email: true means the call returned, false means it raised — in
the source the exception is uncaught, so the whole run aborts and the
remaining subscriptions are not processed (the aborted flag freezes the
fold).  fkd is find_keyword_details against the day's fixed menu data. -/
def processSub (debugAlways : Bool) (tdy : Nat)
    (fkd : List Str → Option (List Str) → HallResults) (send : Str → Bool)
    (st : RunState) (sub : Subscription) : RunState :=
  if st.aborted then st
  else
    if ((sub.keywords.filter (fun k => !k.isEmpty && !(pyStrip k).isEmpty)).map pyStrip).isEmpty
    then st
    else
      if !debugAlways && (match sub.last_notified with
          | some d => decide (tdy ≤ d)
          | none => false) then st
      else
        if (fkd ((sub.keywords.filter (fun k => !k.isEmpty && !(pyStrip k).isEmpty)).map pyStrip)
            sub.halls).isEmpty then st
        else
          if send sub.email then
            { sent := st.sent ++ [sub.email],
              subsDb := update_last_notified st.subsDb sub.email tdy,
              aborted := st.aborted }
          else { st with aborted := true }

/-- run_notifications.main: iterate the subscription snapshot, sending at
most one digest per subscription and recording last_notified after a
successful send. -/
def run_notifications (debugAlways : Bool) (tdy : Nat)
    (fkd : List Str → Option (List Str) → HallResults) (send : Str → Bool)
    (db : List Subscription) : RunState :=
  db.foldl (processSub debugAlways tdy fkd send) ⟨[], db, false⟩

theorem processSub_cases (debug : Bool) (tdy : Nat)
    (fkd : List Str → Option (List Str) → HallResults) (send : Str → Bool)
    (st : RunState) (sub : Subscription) :
    processSub debug tdy fkd send st sub = st ∨
    (processSub debug tdy fkd send st sub
        = { sent := st.sent ++ [sub.email],
            subsDb := update_last_notified st.subsDb sub.email tdy,
            aborted := st.aborted }
      ∧ send sub.email = true
      ∧ (debug = false → ∀ d, sub.last_notified = some d → d < tdy)) ∨
    (processSub debug tdy fkd send st sub = { st with aborted := true }
      ∧ send sub.email = false) := by
  unfold processSub
  split
  · exact Or.inl rfl
  · split
    · exact Or.inl rfl
    · split
      · exact Or.inl rfl
      · rename_i hgate
        split
        · exact Or.inl rfl
        · split
          · rename_i hsend
            refine Or.inr (Or.inl ⟨rfl, hsend, ?_⟩)
            intro hdbg d hld
            subst hdbg
            rw [hld] at hgate
            simp at hgate
            omega
          · rename_i hsend
            exact Or.inr (Or.inr ⟨rfl, by simpa using hsend⟩)

theorem update_last_notified_emails (db : List Subscription) (e : Str) (tdy : Nat) :
    (update_last_notified db e tdy).map (·.email) = db.map (·.email) := by
  unfold update_last_notified
  induction db with
  | nil => rfl
  | cons s rest ih =>
    simp only [List.map_cons]
    rw [show ((if s.email = e then { s with last_notified := some tdy } else s)).email
        = s.email by split <;> rfl]
    rw [show List.map (·.email) (List.map
        (fun s => if s.email = e then { s with last_notified := some tdy } else s) rest)
      = List.map (·.email) rest from ih]

theorem foldRun_emails (debug : Bool) (tdy : Nat)
    (fkd : List Str → Option (List Str) → HallResults) (send : Str → Bool) :
    ∀ (l : List Subscription) (st : RunState),
      ((l.foldl (processSub debug tdy fkd send) st).subsDb).map (·.email)
        = st.subsDb.map (·.email) := by
  intro l
  induction l with
  | nil => intro st; rfl
  | cons sub rest ih =>
    intro st
    rw [List.foldl_cons, ih]
    rcases processSub_cases debug tdy fkd send st sub with h | ⟨h, _, _⟩ | ⟨h, _⟩
    · rw [h]
    · rw [h]
      exact update_last_notified_emails st.subsDb sub.email tdy
    · rw [h]

theorem foldRun_sent_provenance (debug : Bool) (tdy : Nat)
    (fkd : List Str → Option (List Str) → HallResults) (send : Str → Bool) (e : Str) :
    ∀ (l : List Subscription) (st : RunState),
      e ∈ (l.foldl (processSub debug tdy fkd send) st).sent →
      e ∈ st.sent ∨ ∃ s ∈ l, s.email = e ∧ send s.email = true ∧
        (debug = false → ∀ d, s.last_notified = some d → d < tdy) := by
  intro l
  induction l with
  | nil => intro st h; exact Or.inl h
  | cons sub rest ih =>
    intro st h
    rw [List.foldl_cons] at h
    rcases ih (processSub debug tdy fkd send st sub) h with h' | ⟨s, hs, hse, hsend, hgate⟩
    · rcases processSub_cases debug tdy fkd send st sub with hc | ⟨hc, hsend, hgate⟩ | ⟨hc, _⟩
      · rw [hc] at h'
        exact Or.inl h'
      · rw [hc] at h'
        rcases List.mem_append.mp h' with h' | h'
        · exact Or.inl h'
        · exact Or.inr ⟨sub, by simp, (List.mem_singleton.mp h').symm, hsend, hgate⟩
      · rw [hc] at h'
        exact Or.inl h'
    · exact Or.inr ⟨s, by simp [hs], hse, hsend, hgate⟩

theorem foldRun_count (debug : Bool) (tdy : Nat)
    (fkd : List Str → Option (List Str) → HallResults) (send : Str → Bool) (e : Str) :
    ∀ (l : List Subscription) (st : RunState),
      ((l.foldl (processSub debug tdy fkd send) st).sent).countP (fun x => decide (x = e))
        ≤ st.sent.countP (fun x => decide (x = e))
          + (l.filter (fun s => decide (s.email = e))).length := by
  intro l
  induction l with
  | nil => intro st; simp
  | cons sub rest ih =>
    intro st
    rw [List.foldl_cons]
    refine le_trans (ih (processSub debug tdy fkd send st sub)) ?_
    have hfil : (List.filter (fun s => decide (s.email = e)) (sub :: rest)).length
        = (List.filter (fun s => decide (s.email = e)) rest).length
          + (if sub.email = e then 1 else 0) := by
      rw [List.filter_cons]
      split
      · rename_i hc
        rw [if_pos (by simpa using hc)]
        simp
      · rename_i hc
        rw [if_neg (by simpa using hc)]
        simp
    rcases processSub_cases debug tdy fkd send st sub with hc | ⟨hc, _, _⟩ | ⟨hc, _⟩
    · rw [hc, hfil]; omega
    · have hcnt : (st.sent ++ [sub.email]).countP (fun x => decide (x = e))
          = st.sent.countP (fun x => decide (x = e)) + (if sub.email = e then 1 else 0) := by
        rw [List.countP_append]
        simp [List.countP_cons]
      simp only [hc]
      rw [hcnt, hfil]
      omega
    · simp only [hc]
      rw [hfil]
      omega

theorem foldRun_recorded (debug : Bool) (tdy : Nat)
    (fkd : List Str → Option (List Str) → HallResults) (send : Str → Bool) (e : Str) :
    ∀ (l : List Subscription) (st : RunState),
      (e ∈ st.sent → ∀ s ∈ st.subsDb, s.email = e → s.last_notified = some tdy) →
      e ∈ (l.foldl (processSub debug tdy fkd send) st).sent →
      ∀ s ∈ (l.foldl (processSub debug tdy fkd send) st).subsDb, s.email = e →
        s.last_notified = some tdy := by
  intro l
  induction l with
  | nil => intro st hinv h; exact hinv h
  | cons sub rest ih =>
    intro st hinv h
    rw [List.foldl_cons] at h ⊢
    refine ih (processSub debug tdy fkd send st sub) ?_ h
    rcases processSub_cases debug tdy fkd send st sub with hc | ⟨hc, _, _⟩ | ⟨hc, _⟩
    · rw [hc]; exact hinv
    · rw [hc]
      intro hmem s hs hse
      obtain ⟨s₀, hs₀, hs₀eq⟩ := List.mem_map.mp hs
      by_cases h0 : s₀.email = sub.email
      · have hs' : ({ s₀ with last_notified := some tdy } : Subscription) = s := by
          rw [← hs₀eq]
          simp [h0]
        rw [← hs']
      · have hs' : s₀ = s := by
          rw [← hs₀eq]
          simp [h0]
        rcases List.mem_append.mp hmem with hmem' | hmem'
        · rw [← hs']
          exact hinv hmem' s₀ hs₀ (by rw [hs']; exact hse)
        · exfalso
          apply h0
          rw [hs', hse]
          exact List.mem_singleton.mp hmem'
    · rw [hc]; exact hinv

theorem foldRun_skip (tdy : Nat)
    (fkd : List Str → Option (List Str) → HallResults) (send : Str → Bool) (e : Str) :
    ∀ (l : List Subscription) (st : RunState),
      (∀ s ∈ l, s.email = e → ∃ d, s.last_notified = some d ∧ tdy ≤ d) →
      e ∉ st.sent →
      e ∉ (l.foldl (processSub false tdy fkd send) st).sent := by
  intro l st hblock hnot h
  rcases foldRun_sent_provenance false tdy fkd send e l st h with h' | ⟨s, hs, hse, _, hgate⟩
  · exact hnot h'
  · obtain ⟨d, hld, hd⟩ := hblock s hs hse
    exact absurd (hgate rfl d hld) (by omega)

theorem update_last_notified_obs (db : List Subscription) (e' : Str) (tdy : Nat) (e : Str)
    (hne : e' ≠ e) :
    (update_last_notified db e' tdy).filterMap
        (fun s => if s.email = e then some s.last_notified else none)
      = db.filterMap (fun s => if s.email = e then some s.last_notified else none) := by
  unfold update_last_notified
  induction db with
  | nil => rfl
  | cons s rest ih =>
    simp only [List.map_cons, List.filterMap_cons]
    by_cases h0 : s.email = e'
    · rw [if_pos h0]
      rw [show (if ({ s with last_notified := some tdy } : Subscription).email = e
          then some ({ s with last_notified := some tdy } : Subscription).last_notified
          else none) = none by
        rw [if_neg]; show ¬s.email = e; rw [h0]; exact hne]
      rw [show (if s.email = e then some s.last_notified else none) = none by
        rw [if_neg]; rw [h0]; exact hne]
      exact ih
    · rw [if_neg h0]
      cases hse : (if s.email = e then some s.last_notified else none) <;> rw [ih]

theorem foldRun_unchanged (debug : Bool) (tdy : Nat)
    (fkd : List Str → Option (List Str) → HallResults) (send : Str → Bool) (e : Str)
    (hsend : send e = false) :
    ∀ (l : List Subscription) (st : RunState),
      ((l.foldl (processSub debug tdy fkd send) st).subsDb).filterMap
          (fun s => if s.email = e then some s.last_notified else none)
        = st.subsDb.filterMap (fun s => if s.email = e then some s.last_notified else none) := by
  intro l
  induction l with
  | nil => intro st; rfl
  | cons sub rest ih =>
    intro st
    rw [List.foldl_cons, ih]
    rcases processSub_cases debug tdy fkd send st sub with hc | ⟨hc, hsent, _⟩ | ⟨hc, _⟩
    · rw [hc]
    · rw [hc]
      refine update_last_notified_obs st.subsDb sub.email tdy e ?_
      intro hcontr
      rw [hcontr] at hsent
      rw [hsent] at hsend
      exact absurd hsend (by simp)
    · rw [hc]

theorem filter_email_length_le_one (db : List Subscription) (e : Str)
    (h : (db.map (·.email)).Nodup) :
    (db.filter (fun s => decide (s.email = e))).length ≤ 1 := by
  induction db with
  | nil => simp
  | cons s rest ih =>
    rw [List.map_cons, List.nodup_cons] at h
    rw [List.filter_cons]
    split
    · rename_i hc
      have hse : s.email = e := by simpa using hc
      have hrest : rest.filter (fun s => decide (s.email = e)) = [] := by
        apply List.filter_eq_nil_iff.mpr
        intro a ha
        simp only [decide_eq_true_eq]
        intro hae
        apply h.1
        have hmem : a.email ∈ rest.map (·.email) := List.mem_map_of_mem _ ha
        rw [hae, ← hse] at hmem
        exact hmem
      rw [hrest]
      simp
    · exact ih h.2

/-- C5: with the debug override off, running the dispatcher twice on the
same day with the same matcher (unchanged menu data) and an unchanged
subscription table sends at most one email per subscriber, and a
subscription already notified today (last_notified ≥ today) is skipped
without any email. -/
theorem dispatcher_at_most_once (tdy : Nat)
    (fkd : List Str → Option (List Str) → HallResults) (send₁ send₂ : Str → Bool)
    (db : List Subscription) (hnd : (db.map (·.email)).Nodup) (e : Str) :
    ((run_notifications false tdy fkd send₁ db).sent
        ++ (run_notifications false tdy fkd send₂
              (run_notifications false tdy fkd send₁ db).subsDb).sent).countP
      (fun x => decide (x = e)) ≤ 1 ∧
    ((∀ s ∈ db, s.email = e → ∃ d, s.last_notified = some d ∧ tdy ≤ d) →
      e ∉ (run_notifications false tdy fkd send₁ db).sent) := by
  constructor
  · rw [List.countP_append]
    by_cases he1 : e ∈ (run_notifications false tdy fkd send₁ db).sent
    · have hcnt := foldRun_count false tdy fkd send₁ e db ⟨[], db, false⟩
      have hz : (RunState.mk [] db false).sent.countP (fun x => decide (x = e)) = 0 := rfl
      rw [hz] at hcnt
      have hf := filter_email_length_le_one db e hnd
      have hrec := foldRun_recorded false tdy fkd send₁ e db ⟨[], db, false⟩
        (fun h => absurd h (List.not_mem_nil e)) he1
      have hskip := foldRun_skip tdy fkd send₂ e
        (run_notifications false tdy fkd send₁ db).subsDb
        ⟨[], (run_notifications false tdy fkd send₁ db).subsDb, false⟩
        (fun s hs hse => ⟨tdy, hrec s hs hse, le_refl tdy⟩) (List.not_mem_nil e)
      have hc2 : (run_notifications false tdy fkd send₂
          (run_notifications false tdy fkd send₁ db).subsDb).sent.countP
            (fun x => decide (x = e)) = 0 := by
        apply List.countP_eq_zero.mpr
        intro a ha
        simp only [decide_eq_true_eq]
        intro hae
        exact hskip (hae ▸ ha)
      have hc1 : (run_notifications false tdy fkd send₁ db).sent.countP
          (fun x => decide (x = e)) ≤ 1 := le_trans hcnt (by omega)
      omega
    · have hc1 : (run_notifications false tdy fkd send₁ db).sent.countP
          (fun x => decide (x = e)) = 0 := by
        apply List.countP_eq_zero.mpr
        intro a ha
        simp only [decide_eq_true_eq]
        intro hae
        exact he1 (hae ▸ ha)
      have hEm := foldRun_emails false tdy fkd send₁ db ⟨[], db, false⟩
      rw [show (RunState.mk [] db false).subsDb = db from rfl] at hEm
      have hnd2 : (((run_notifications false tdy fkd send₁ db).subsDb).map (·.email)).Nodup := by
        rw [show ((run_notifications false tdy fkd send₁ db).subsDb).map (·.email)
            = db.map (·.email) from hEm]
        exact hnd
      have hcnt := foldRun_count false tdy fkd send₂ e
        (run_notifications false tdy fkd send₁ db).subsDb
        ⟨[], (run_notifications false tdy fkd send₁ db).subsDb, false⟩
      have hz : (RunState.mk [] (run_notifications false tdy fkd send₁ db).subsDb
          false).sent.countP (fun x => decide (x = e)) = 0 := rfl
      rw [hz] at hcnt
      have hf := filter_email_length_le_one (run_notifications false tdy fkd send₁ db).subsDb
        e hnd2
      have hcnt' : (run_notifications false tdy fkd send₂
          (run_notifications false tdy fkd send₁ db).subsDb).sent.countP
            (fun x => decide (x = e))
          ≤ 0 + ((run_notifications false tdy fkd send₁ db).subsDb.filter
              (fun s => decide (s.email = e))).length := hcnt
      omega
  · intro hblock
    exact foldRun_skip tdy fkd send₁ e db ⟨[], db, false⟩ hblock (List.not_mem_nil e)

/-- C1 counterexample: a subscription with a non-empty match result whose
send raises: the dispatcher records nothing — last_notified stays None
instead of advancing to today — and the run aborts. -/
theorem send_failure_no_update :
    ([("Simmons Hall".toList, [("k".toList, ["Dinner".toList])])] : HallResults).isEmpty
      = false ∧
    run_notifications false 5
        (fun _ _ => [("Simmons Hall".toList, [("k".toList, ["Dinner".toList])])])
        (fun _ => false)
        [⟨"a".toList, ["k".toList], none, none⟩]
      = ⟨[], [⟨"a".toList, ["k".toList], none, none⟩], true⟩ := by
  exact ⟨by decide, by rfl⟩

/-- C1 (amended): the dispatcher records last_notified = today exactly for
subscribers it successfully emailed; when send_email raises for an address,
that subscriber's last_notified values are left unchanged (and the
exception aborts the run). -/
theorem update_only_after_send (debug : Bool) (tdy : Nat)
    (fkd : List Str → Option (List Str) → HallResults) (send : Str → Bool)
    (db : List Subscription) :
    (∀ e, e ∈ (run_notifications debug tdy fkd send db).sent →
      ∀ s ∈ (run_notifications debug tdy fkd send db).subsDb, s.email = e →
        s.last_notified = some tdy) ∧
    (∀ e, send e = false →
      ((run_notifications debug tdy fkd send db).subsDb).filterMap
          (fun s => if s.email = e then some s.last_notified else none)
        = db.filterMap (fun s => if s.email = e then some s.last_notified else none)) := by
  constructor
  · intro e he
    exact foldRun_recorded debug tdy fkd send e db ⟨[], db, false⟩
      (fun h => absurd h (List.not_mem_nil e)) he
  · intro e hsend
    exact foldRun_unchanged debug tdy fkd send e hsend db ⟨[], db, false⟩

/-! ### Witnesses: each hypothesis-bearing claim theorem applied at a
concrete input -/

theorem contains_phrase_spec_witness :
    _contains_sequence ([] : List Str) ([] : List Str) = false :=
  (contains_phrase_spec [] []).2.1 rfl

theorem keyword_cleaning_spec_witness :
    find_keyword_details true 0 (fun _ => Except.error ()) (okExtract (fun _ => []))
      [] none emptyCache = Except.ok ([], emptyCache) :=
  (keyword_cleaning_spec true 0 (fun _ => Except.error ()) (okExtract (fun _ => []))
    [] none emptyCache).2.1 (by decide)

theorem match_result_origin_witness :
    ([("jalapeno".toList, ["Dinner".toList])] : Matches) ≠ [] ∧
    ∃ html, (fun (_ : Str) => Except.ok (ε := Unit) ("menu".toList)) ("Simmons Hall".toList)
        = Except.ok html ∧
      ∀ kw meals, (kw, meals) ∈ ([("jalapeno".toList, ["Dinner".toList])] : Matches) →
        ∃ ml itemsl item,
          (ml, itemsl) ∈ (fun (_ : Str) =>
            [("Dinner".toList, ["jalapeno poppers".toList])]) html ∧
          item ∈ itemsl ∧
          _contains_sequence (_tokenize item) (_tokenize kw) = true :=
  match_result_origin false 0 (fun _ => Except.ok ("menu".toList))
    (fun _ => [("Dinner".toList, ["jalapeno poppers".toList])])
    ["jalapeno".toList] (some ["Simmons Hall".toList])
    [("Simmons Hall".toList, [("jalapeno".toList, ["Dinner".toList])])]
    ⟨[], 1⟩ ("Simmons Hall".toList) [("jalapeno".toList, ["Dinner".toList])]
    (by rfl) (by decide)

theorem dispatcher_at_most_once_witness :
    ((run_notifications false 0 (fun _ _ => []) (fun _ => true)
        [⟨"a".toList, ["k".toList], none, none⟩]).sent
      ++ (run_notifications false 0 (fun _ _ => []) (fun _ => true)
            (run_notifications false 0 (fun _ _ => []) (fun _ => true)
              [⟨"a".toList, ["k".toList], none, none⟩]).subsDb).sent).countP
      (fun x => decide (x = "a".toList)) ≤ 1 :=
  (dispatcher_at_most_once 0 (fun _ _ => []) (fun _ => true) (fun _ => true)
    [⟨"a".toList, ["k".toList], none, none⟩] (by decide) ("a".toList)).1

theorem cache_transparency_witness :
    ∃ (R : HallResults) (stE stD : CacheState),
      iterEngine true 0 (fun h => Except.ok ((fun _ => "m".toList) h))
          (okExtract (fun _ => [])) ["k".toList] (some ["Simmons Hall".toList]) 2 emptyCache
        = Except.ok (List.replicate 2 R, stE) ∧
      iterEngine false 0 (fun h => Except.ok ((fun _ => "m".toList) h))
          (okExtract (fun _ => [])) ["k".toList] (some ["Simmons Hall".toList]) 2 emptyCache
        = Except.ok (List.replicate 2 R, stD) ∧
      stE.fetchCalls = (if 2 = 0 then 0 else allowedCount (some ["Simmons Hall".toList])) ∧
      stD.fetchCalls = 2 * allowedCount (some ["Simmons Hall".toList]) :=
  cache_transparency 2 0 (fun _ => "m".toList) (fun _ => []) ["k".toList]
    (some ["Simmons Hall".toList]) (fun _ => rfl) (by decide)

theorem fetch_failure_isolated_witness :
    ∃ (res : HallResults) (st₁ st₂ : CacheState),
      find_keyword_details false 0 (fun _ => Except.error ()) (okExtract (fun _ => []))
          ["k".toList] none emptyCache = Except.ok (res, st₁) ∧
      find_keyword_details false 0 (fun _ => Except.error ()) (okExtract (fun _ => []))
          ["k".toList] none emptyCache
        = Except.ok (res.filter (fun p => !(decide (p.1 = "Simmons Hall".toList))), st₂) :=
  fetch_failure_isolated false 0 (fun _ => Except.error ()) (fun _ => Except.error ())
    (fun _ => []) ["k".toList] none ("Simmons Hall".toList) rfl (fun _ _ => rfl)

theorem symbol_only_keyword_never_matches_witness :
    cleanKw ["!!!".toList] = [pyStrip ("!!!".toList)] :=
  (symbol_only_keyword_never_matches ("!!!".toList) (by decide) (by decide)).1

theorem line_fallback_only_in_snippets_witness :
    ∃ st', find_keyword_details true 0 (fun _ => Except.ok ("d".toList))
        (okExtract (fun _ => [])) ["k".toList] none emptyCache = Except.ok ([], st') :=
  (line_fallback_only_in_snippets true 0 (fun _ => Except.ok ("d".toList)) (fun _ => [])
    (fun _ => ["x".toList]) ["k".toList] none 3 emptyCache (fun _ => rfl)).2

theorem update_only_after_send_witness :
    ((run_notifications false 3 (fun _ _ => []) (fun _ => false)
        [⟨"a".toList, ["k".toList], none, none⟩]).subsDb).filterMap
      (fun s => if s.email = "a".toList then some s.last_notified else none)
      = [(⟨"a".toList, ["k".toList], none, none⟩ : Subscription)].filterMap
          (fun s => if s.email = "a".toList then some s.last_notified else none) :=
  (update_only_after_send false 3 (fun _ _ => []) (fun _ => false)
    [⟨"a".toList, ["k".toList], none, none⟩]).2 ("a".toList) rfl

example : _tokenize ("Jalapeño  Poppers!".toList) = ["jalapeno".toList, "poppers".toList] := by decide

example : _contains_sequence ["jalapeno".toList, "poppers".toList, "are".toList]
    ["jalapeno".toList, "poppers".toList] = true := by decide

example : _tokenize ("!!!".toList) = [] := by decide

example : pyStrip ("  a b  ".toList) = "a b".toList := by decide

end Dining
